import Mathlib

/-!
Verification development for the TARSGemini streaming voice-assistant core.

The definitions below are a shallow embedding of the Python sources:

* `src/core/streaming_pipeline.py` — `StreamingPipeline.process_query`
  (sentence-boundary scan over the streamed chunks, residual flush,
  cache interaction, callback and error behaviour);
* `src/core/response_cache.py` — `ResponseCache` (LRU over an ordered map);
* `src/core/text_to_speech.py` — `TextToSpeech.speak`, `speak_async` and
  `_speak_queue_worker`;
* `src/personality/tars_personality.py` — the `(humor, honesty)` traits used
  to build the personality fingerprint `f"{humor}_{honesty}"`.

Text is modelled as `List Char`.  Whitespace and lower-casing are modelled on
the ASCII fragment of the corresponding Python string operations.
-/

set_option maxHeartbeats 1000000

namespace TARS

/-- The sentence-terminator class `[.!?]` of
`sentence_end_pattern = re.compile(r'([.!?])\s+|([.!?])$')`
in `src/core/streaming_pipeline.py`. -/
def isTerm (c : Char) : Bool := c = '.' || c = '!' || c = '?'

/-- Python's whitespace class `\s` (which is also the character class removed
by `str.strip()`), restricted to its ASCII members: space, tab, linefeed,
carriage return, vertical tab, form feed. -/
def pySpace (c : Char) : Bool :=
  c = ' ' || c = '\t' || c = '\n' || c = '\r' || c = '\x0b' || c = '\x0c'

/-- Python `str.strip()`: drop whitespace from both ends. -/
def pstrip (s : List Char) : List Char :=
  ((s.dropWhile pySpace).reverse.dropWhile pySpace).reverse

/-!
### The sentence-boundary scan

`process_query` keeps a `sentence_buffer` and, on every arriving chunk, runs

```
for match in sentence_end_pattern.finditer(sentence_buffer):
    sentence = sentence_buffer[last_end:match.end()].strip()
    if sentence: sentences.append(sentence)
    last_end = match.end()
if sentences: sentence_buffer = sentence_buffer[last_end:]
```

with `sentence_end_pattern = r'([.!?])\s+|([.!?])$'`.  A (leftmost,
non-overlapping) match of this pattern is either a terminator followed by a
maximal non-empty whitespace run (the first alternative; `\s+` is greedy, and
it also subsumes the `$`-before-trailing-newline behaviour of the second
alternative, since `'\n'` is in `\s`), or a terminator that is the last
character of the buffer (the second alternative).  The raw slice handed to
`strip()` runs from the end of the previous match to the end of the current
one, and the text after the last match stays in the buffer.

We model this scan as a single left-to-right pass (`stepRun`) whose mode
records exactly what the regex engine needs of the history:

* `plain`     — not immediately after a terminator;
* `afterTerm` — the previous character was a terminator, so a following
  whitespace character opens a boundary match;
* `inRun`     — inside the whitespace run of a boundary match; the run ends
  (and the pending raw sentence is emitted) at the next non-whitespace
  character, or at the end of the buffer.

`finalize` applies the end-of-buffer rule: in mode `afterTerm` the `$`
alternative matches, and in mode `inRun` the greedy `\s+` run has reached the
end of the buffer; in both cases the pending slice is a final sentence and
the buffer empties.  In mode `plain` the pending text is the unterminated
leftover.
-/

/-- Mode of the boundary scan; see the module comment above. -/
inductive SegMode
  | plain
  | afterTerm
  | inRun
deriving DecidableEq, Repr

/-- Mode transition of the boundary scan.  It depends only on the mode and the
scanned character: whitespace keeps `plain` (no pending boundary) and turns
`afterTerm`/`inRun` into `inRun`; a terminator always puts the scan in
`afterTerm`; any other character returns to `plain`. -/
def nextMode (m : SegMode) (c : Char) : SegMode :=
  if pySpace c then
    match m with
    | SegMode.plain => SegMode.plain
    | _ => SegMode.inRun
  else if isTerm c then SegMode.afterTerm
  else SegMode.plain

/-- One left-to-right pass of the boundary scan.  `cur` is the pending raw
slice (text since the end of the previous match).  A raw sentence is emitted
exactly when a boundary's whitespace run ends at a non-whitespace character;
the end-of-buffer cases are finished by `finalize`.  Returns the emitted raw
slices, the final mode, and the final pending slice. -/
def stepRun : SegMode → List Char → List Char → List (List Char) × SegMode × List Char
  | m, cur, [] => ([], m, cur)
  | SegMode.inRun, cur, c :: rest =>
    if pySpace c then
      stepRun SegMode.inRun (cur ++ [c]) rest
    else
      let r := stepRun (nextMode SegMode.inRun c) [c] rest
      (cur :: r.1, r.2)
  | m, cur, c :: rest => stepRun (nextMode m c) (cur ++ [c]) rest

/-- End-of-buffer rule of the regex scan (see the module comment): in modes
`afterTerm` and `inRun` the pending slice is a final raw sentence and the
buffer empties; in mode `plain` it is the unterminated leftover. -/
def finalize : List (List Char) × SegMode × List Char → List (List Char) × List Char
  | (ss, SegMode.plain, cur) => (ss, cur)
  | (ss, _, cur) => (ss ++ [cur], [])

/-- The full regex scan of one `sentence_buffer`: raw sentence slices plus the
remaining buffer, as computed by the `finditer` loop of `process_query`. -/
def segs (buf : List Char) : List (List Char) × List Char :=
  finalize (stepRun SegMode.plain [] buf)

/-- `sentence.strip()` plus the `if sentence:` guard applied to the raw
slices: the sentence units actually yielded for one batch of raw slices. -/
def emitted (ss : List (List Char)) : List (List Char) :=
  (ss.map pstrip).filter (fun s => s ≠ [])

/-- One iteration of the chunk loop of `process_query`: append the chunk to
the buffer, scan, and emit the stripped non-empty sentences.  (When the scan
finds no match, `segs` returns the whole buffer as leftover, which agrees
with the source's `if sentences:` guard around the buffer truncation.) -/
def feedBuf (buf chunk : List Char) : List (List Char) × List Char :=
  let r := segs (buf ++ chunk)
  (emitted r.1, r.2)

/-- The chunk loop of `process_query` over a finite chunk stream, starting
from a given buffer: all emitted sentence units in order, and the final
residual buffer. -/
def runFeeds : List Char → List (List Char) → List (List Char) × List Char
  | buf, [] => ([], buf)
  | buf, ck :: cks =>
    let r := feedBuf buf ck
    let r2 := runFeeds r.2 cks
    (r.1 ++ r2.1, r2.2)

/-- The final residual-buffer flush of `process_query`
(`if sentence_buffer.strip(): yield sentence_buffer.strip()`). -/
def flushUnits (buf : List Char) : List (List Char) :=
  if pstrip buf = [] then [] else [pstrip buf]

/-- The ordered sequence of trimmed sentence units produced by feeding the
given chunks through the sentence-boundary scan of `process_query`, followed
by the final residual flush. -/
def pipeUnits (chunks : List (List Char)) : List (List Char) :=
  let r := runFeeds [] chunks
  r.1 ++ flushUnits r.2

/-- Whitespace normalisation: the subsequence of non-whitespace characters
(two texts are equal up to whitespace exactly when these agree). -/
def nonWS (t : List Char) : List Char := t.filter (fun c => !(pySpace c))

/-- Join text units with single spaces. -/
def joinSp : List (List Char) → List Char
  | [] => []
  | [u] => u
  | u :: us => u ++ ' ' :: joinSp us

/-- Whether the text is empty or starts with whitespace (a chunk boundary
there cannot manufacture a spurious end-of-buffer sentence boundary). -/
def headSpace (t : List Char) : Bool :=
  match t with
  | [] => true
  | c :: _ => pySpace c

/-- One chunk cut is good when the text before the cut does not end in a
sentence terminator, or the text after the cut is empty or starts with
whitespace.  (A terminator at the end of a fed chunk with more non-whitespace
text still to come triggers the provisional end-of-buffer boundary rule and
splits a sentence early.) -/
def goodCut (a b : List Char) : Bool :=
  match a.getLast?, b.head? with
  | some t, some c => !(isTerm t) || pySpace c
  | _, _ => true

/-- Every cut of the chunk list is good (each chunk against the concatenation
of all the text still to come). -/
def goodSplit : List (List Char) → Bool
  | [] => true
  | a :: rest => goodCut a rest.flatten && goodSplit rest

/-- Prepend text to the first pending slice of a scan result: the raw slice
under construction when a scan starts mid-buffer. -/
def prefixFirst (a : List Char) :
    List (List Char) × SegMode × List Char → List (List Char) × SegMode × List Char
  | ([], m, cur) => ([], m, a ++ cur)
  | (s :: ss, m, cur) => ((a ++ s) :: ss, m, cur)

/-- Trimmed units still to be produced by the single-buffer scan when it is
resumed from mid-scan state `(m, cur)` on the remaining text `t`, including
the end-of-buffer finalisation and the pipeline's residual flush. -/
def wholeCont (m : SegMode) (cur : List Char) (t : List Char) : List (List Char) :=
  let r := finalize (stepRun m cur t)
  emitted r.1 ++ flushUnits r.2

/-- Trimmed units still to be produced by the chunked run from residual
buffer `buf` on the remaining chunks, including the final flush. -/
def chunkCont (buf : List Char) (cks : List (List Char)) : List (List Char) :=
  let r := runFeeds buf cks
  r.1 ++ flushUnits r.2

/-!
### The response cache

Shallow embedding of `src/core/response_cache.py`.  The `OrderedDict` is an
association list whose head is the least-recently-used entry and whose last
element is the most-recently-used one; `move_to_end` moves an entry to the
end, `popitem(last=False)` removes the head.  The `hashlib.md5` hex digest is
modelled as an injective encoding, so we identify a key with the string that
the source digests (`query.lower().strip()` plus the fingerprint). -/

/-- Python `str.lower()` restricted to ASCII, as applied by `_hash_query`. -/
def pyLower (c : Char) : Char := c.toLower

/-- `key = query.lower().strip()` from `ResponseCache._hash_query`. -/
def normQuery (q : List Char) : List Char := pstrip (q.map pyLower)

/-- `ResponseCache._hash_query`: the digested key string.  The personality
hash is appended only when it is truthy (`if personality_hash:`), i.e. present
and non-empty. -/
def hashQuery (q : List Char) (phash : Option (List Char)) : List Char :=
  let key := normQuery q
  match phash with
  | some p => if p = [] then key else key ++ p
  | none => key

/-- The decimal digit character for `d < 10`: `'0'` has code 48. -/
def decDigit (d : Nat) : Char := Char.ofNat (48 + d)

/-- Decimal rendering of a natural number (Python `f"{n}"`), with a
structural fuel argument so that it evaluates by kernel reduction. -/
def natReprAux : Nat → Nat → List Char
  | 0, _ => []
  | fuel + 1, n =>
    if n < 10 then [decDigit n]
    else natReprAux fuel (n / 10) ++ [decDigit (n % 10)]

/-- Decimal rendering of a natural number, as Python's `f"{n}"` formats the
(clamped, hence non-negative) personality traits. -/
def natRepr (n : Nat) : List Char := natReprAux (n + 1) n

/-- Decimal value of a digit character (proof-side inverse of `decDigit`). -/
def digitVal (c : Char) : Nat := c.toNat - 48

/-- Read a digit string back as a number (proof-side inverse of `natRepr`). -/
def unrepr (s : List Char) : Nat := s.foldl (fun a c => 10 * a + digitVal c) 0

/-- The personality fingerprint `f"{self.personality.humor}_{self.personality.honesty}"`
computed in `process_query`. -/
def fingerprint (humor honesty : Nat) : List Char :=
  natRepr humor ++ '_' :: natRepr honesty

/-- State of a `ResponseCache`: capacity, the ordered entry list (head =
least recently used), and the enabled flag. -/
structure ResponseCache where
  max_size : Nat
  cache : List (List Char × List Char)
  enabled : Bool
deriving DecidableEq, Repr

/-- First-match association-list lookup (dictionary read). -/
def lookupKey (k : List Char) : List (List Char × List Char) → Option (List Char)
  | [] => none
  | e :: es => if e.1 = k then some e.2 else lookupKey k es

/-- Remove the entry with the given key (dictionary keys are unique, so on
states reachable from Python this removes at most one entry). -/
def eraseKey (k : List Char) (l : List (List Char × List Char)) :
    List (List Char × List Char) :=
  l.filter (fun e => e.1 != k)

/-- `OrderedDict.move_to_end(key)`: move the entry to the most-recently-used
end, keeping its value.  (The source only calls it on present keys.) -/
def moveToEnd (k : List Char) (l : List (List Char × List Char)) :
    List (List Char × List Char) :=
  match lookupKey k l with
  | some v => eraseKey k l ++ [(k, v)]
  | none => l

/-- `ResponseCache.get`: `None` when disabled; on a hit, promote the entry to
most-recently-used and return its value.  Returns the (possibly re-ordered)
cache state alongside the result. -/
def ResponseCache.get (c : ResponseCache) (q : List Char)
    (phash : Option (List Char)) : Option (List Char) × ResponseCache :=
  if c.enabled = false then (none, c)
  else
    let k := hashQuery q phash
    match lookupKey k c.cache with
    | some v => (some v, { c with cache := moveToEnd k c.cache })
    | none => (none, c)

/-- `ResponseCache.set`: no-op when disabled; otherwise insert/overwrite the
entry at the most-recently-used end (`self.cache[key] = response` followed by
`move_to_end`), then pop the least-recently-used entry if the size now
exceeds `max_size`. -/
def ResponseCache.set (c : ResponseCache) (q r : List Char)
    (phash : Option (List Char)) : ResponseCache :=
  if c.enabled = false then c
  else
    let k := hashQuery q phash
    let l1 := eraseKey k c.cache ++ [(k, r)]
    if c.max_size < l1.length then { c with cache := l1.drop 1 }
    else { c with cache := l1 }

/-- `ResponseCache.clear`. -/
def ResponseCache.clear (c : ResponseCache) : ResponseCache :=
  { c with cache := [] }

/-- `ResponseCache.enable`. -/
def ResponseCache.enable (c : ResponseCache) : ResponseCache :=
  { c with enabled := true }

/-- `ResponseCache.disable`. -/
def ResponseCache.disable (c : ResponseCache) : ResponseCache :=
  { c with enabled := false }

/-- One public cache operation, for stating invariants over operation
sequences. -/
inductive CacheOp
  | get (q : List Char) (phash : Option (List Char))
  | set (q r : List Char) (phash : Option (List Char))
  | clear

/-- Apply one public cache operation to a cache state. -/
def applyOp (c : ResponseCache) : CacheOp → ResponseCache
  | CacheOp.get q p => (c.get q p).2
  | CacheOp.set q r p => c.set q r p
  | CacheOp.clear => c.clear

/-!
### The speech queue and its worker

Shallow embedding of `src/core/text_to_speech.py`.  A queued task is the
stripped text plus whether a completion callback was attached
(`audio_queue.put((text.strip(), callback))`).  The behaviour of the external
voice-cloning and playback services for the `i`-th task is an oracle value:
synthesis may raise, may report no audio file, or may produce a file whose
playback then succeeds or raises.  `TextToSpeech` is only constructed with
voice cloning initialized (`_init_voice_cloning` exits the process
otherwise), so the `self.voice_cloning` null checks are not reachable and are
not modelled. -/

/-- Outcome of the external synthesis/playback services for one task. -/
inductive SynthOutcome
  | ok          -- `clone_voice` returns a file and playback completes
  | noFile      -- `clone_voice` returns `None`/missing file
  | synthRaises -- `clone_voice` raises
  | playRaises  -- playback raises inside `_play_audio_file`
deriving DecidableEq, Repr

/-- Observable events of the TTS worker, indexed by task position. -/
inductive TtsEvent
  | synthAttempt (i : Nat)
  | playAttempt (i : Nat)
  | cbFire (i : Nat)
deriving DecidableEq, Repr

/-- `TextToSpeech.speak` for task `i`: empty/whitespace text returns early
but still fires the callback; otherwise synthesis is attempted, playback is
attempted when a file was produced, and the callback fires on every path
(success, missing file, synthesis exception, playback exception). -/
def speakEvents (i : Nat) (text : List Char) (hasCb : Bool) (oc : SynthOutcome) :
    List TtsEvent :=
  if pstrip text = [] then (if hasCb then [TtsEvent.cbFire i] else [])
  else
    match oc with
    | SynthOutcome.synthRaises =>
      [TtsEvent.synthAttempt i] ++ (if hasCb then [TtsEvent.cbFire i] else [])
    | SynthOutcome.noFile =>
      [TtsEvent.synthAttempt i] ++ (if hasCb then [TtsEvent.cbFire i] else [])
    | SynthOutcome.ok =>
      [TtsEvent.synthAttempt i, TtsEvent.playAttempt i] ++
        (if hasCb then [TtsEvent.cbFire i] else [])
    | SynthOutcome.playRaises =>
      [TtsEvent.synthAttempt i, TtsEvent.playAttempt i] ++
        (if hasCb then [TtsEvent.cbFire i] else [])

/-- `TextToSpeech._speak_queue_worker` draining the queued tasks in FIFO
order, numbering tasks from `i`.  A task whose text is empty after trimming
is skipped without calling `speak` (so without firing its callback); any
exception inside `speak` is swallowed there, and the worker's own
`except ... continue` keeps the loop alive, so every queued task is reached.
(No caller of this module ever enqueues the `None` stop sentinel, so it is
not modelled.) -/
def workerRun (oracle : Nat → SynthOutcome) : Nat → List (List Char × Bool) → List TtsEvent
  | _, [] => []
  | i, (t, cb) :: rest =>
    (if pstrip t = [] then [] else speakEvents i (pstrip t) cb (oracle i)) ++
      workerRun oracle (i + 1) rest

/-- `TextToSpeech.speak_async`: the tasks it appends to the queue.  Empty or
whitespace-only text is dropped without enqueueing (and without invoking the
callback); otherwise the stripped text and the callback are queued. -/
def speakAsync (text : List Char) (cb : Bool) : List (List Char × Bool) :=
  if pstrip text = [] then [] else [(pstrip text, cb)]

/-!
### The streaming pipeline

Shallow embedding of `StreamingPipeline.process_query`
(`src/core/streaming_pipeline.py`).  The generation service is modelled as
the finite list of chunks it yields plus a flag saying whether it then raises
instead of terminating normally.  The optional callbacks are modelled by
presence flags; `PipeOut` records the fully-drained run: the ordered event
trace, the values yielded to the caller, the tasks handed to the speech
queue, the final cache state, the `is_processing` flag (cleared in the
`finally` block) and whether the exception propagated to the caller. -/

/-- Observable events of one fully drained `process_query` run. -/
inductive PEvent
  | onStart
  | genCall                                -- `generate_stream` is iterated
  | yieldUnit (s : List Char)              -- value yielded to the caller
  | onSentence (s : List Char)
  | cacheWrite (q : List Char) (r : List Char)
  | onComplete
  | raised                                 -- the exception leaves the generator
deriving DecidableEq, Repr

/-- Inputs of one `process_query` run. -/
structure PipeIn where
  cache : ResponseCache
  humor : Nat
  honesty : Nat
  query : List Char
  stream : List (List Char)   -- chunks yielded by `generate_stream`
  genRaises : Bool            -- the generation service raises after them
  hasOnStart : Bool
  hasOnSentence : Bool
  hasOnComplete : Bool
deriving Repr

/-- Result of one fully drained `process_query` run. -/
structure PipeOut where
  trace : List PEvent
  yields : List (List Char)
  tasks : List (List Char × Bool)
  cacheAfter : ResponseCache
  is_processing : Bool
  raised : Bool
deriving DecidableEq, Repr

/-- Events of one sentence unit on the cache-miss path:
`yield cleaned_sentence`, then the optional `on_sentence` callback (the
`speak_async` enqueue is recorded in the task list, not the trace). -/
def unitEvents (hs : Bool) (u : List Char) : List PEvent :=
  [PEvent.yieldUnit u] ++ (if hs then [PEvent.onSentence u] else [])

/-- The cache-miss branch of `process_query`, entered with the cache state
left by the initial lookup and the trace of the `on_start` callback.  The
chunk loop feeds each chunk to the boundary scan and emits every resulting
unit to the caller, the `on_sentence` callback and the speech queue; when the
generation service raises, the residual flush and the cache write are
skipped, `on_complete` still fires, and the exception is re-raised after the
`finally` block clears `is_processing`. -/
def missRun (p : PipeIn) (c1 : ResponseCache) (st : List PEvent) : PipeOut :=
  let r := runFeeds [] p.stream
  let loopEvs := r.1.flatMap (unitEvents p.hasOnSentence)
  let loopTks := r.1.flatMap (fun u => speakAsync u false)
  if p.genRaises then
    { trace := st ++ [PEvent.genCall] ++ loopEvs ++
        (if p.hasOnComplete then [PEvent.onComplete] else []) ++ [PEvent.raised]
      yields := r.1
      tasks := loopTks
      cacheAfter := c1
      is_processing := false
      raised := true }
  else
    let fl := flushUnits r.2
    let full := p.stream.flatten
    { trace := st ++ [PEvent.genCall] ++ loopEvs ++
        fl.flatMap (unitEvents p.hasOnSentence) ++
        [PEvent.cacheWrite p.query full] ++
        (if p.hasOnComplete then [PEvent.onComplete] else [])
      yields := r.1 ++ fl
      tasks := loopTks ++ fl.flatMap (fun u => speakAsync u false)
      cacheAfter := c1.set p.query full (some (fingerprint p.humor p.honesty))
      is_processing := false
      raised := false }

/-- One fully drained `process_query` run.  The initial cache lookup uses the
personality fingerprint; the cached-response branch is taken only when the
result is truthy (`if cached_response:`), i.e. present and non-empty.  On
that branch the cached text goes to `on_sentence`, then to
`speak_async(cached_response, on_complete)` — so `on_complete` is fired by
the speech worker, and is dropped entirely when the cached text strips to
empty — and is finally yielded to the caller. -/
def processQueryRun (p : PipeIn) : PipeOut :=
  let phash := fingerprint p.humor p.honesty
  let g := p.cache.get p.query (some phash)
  let st := if p.hasOnStart then [PEvent.onStart] else []
  match g.1 with
  | some r =>
    if r = [] then missRun p g.2 st
    else
      { trace := st ++ (if p.hasOnSentence then [PEvent.onSentence r] else []) ++
          [PEvent.yieldUnit r]
        yields := [r]
        tasks := speakAsync r p.hasOnComplete
        cacheAfter := g.2
        is_processing := false
        raised := false }
  | none => missRun p g.2 st

/-- Total number of `on_complete` invocations in a whole system run: those
fired directly by `process_query` plus those fired by the TTS worker as task
callbacks (only the cached-response task carries `on_complete`, and
`speakEvents` fires a task's callback only when one is attached). -/
def systemOnCompleteCount (p : PipeIn) (oracle : Nat → SynthOutcome) : Nat :=
  ((processQueryRun p).trace.filter (fun e => e = PEvent.onComplete)).length +
    ((workerRun oracle 0 (processQueryRun p).tasks).filter
      (fun e => match e with | TtsEvent.cbFire _ => true | _ => false)).length

/-- State of a `StreamingPipeline` object as observable between calls. -/
structure PipelineObj where
  cache : ResponseCache
  is_processing : Bool
deriving DecidableEq, Repr

/-- A suspended generator returned by calling `process_query`. -/
structure GenHandle where
  args : PipeIn
deriving Repr

/-- Calling `process_query`.  Its body contains `yield`, so in Python the
call only allocates a suspended generator closing over the arguments; no
statement of the body executes until the caller first advances the returned
iterator.  Accordingly the call returns the pipeline state unchanged
together with the suspended handle. -/
def processQueryCall (st : PipelineObj) (p : PipeIn) : PipelineObj × GenHandle :=
  (st, { args := p })

/-- Draining the suspended generator executes the body: the full run. -/
def drainHandle (h : GenHandle) : PipeOut := processQueryRun h.args

/-- Python truthiness of the initial lookup result (`if cached_response:`):
a hit only counts when the cached text is present and non-empty. -/
def truthyHit : Option (List Char) → Bool
  | some r => !r.isEmpty
  | none => false

/-- Index carried by a TTS worker event. -/
def eventIdx : TtsEvent → Nat
  | TtsEvent.synthAttempt i => i
  | TtsEvent.playAttempt i => i
  | TtsEvent.cbFire i => i

/-! ### Association-list lemmas for the cache -/

theorem lookupKey_some_mem {k : List Char} {v : List Char}
    {l : List (List Char × List Char)} (h : lookupKey k l = some v) : (k, v) ∈ l := by
  induction l with
  | nil => simp [lookupKey] at h
  | cons e es ih =>
    by_cases he : e.1 = k
    · simp [lookupKey, he] at h
      subst h
      have hek : (k, e.2) = e := by
        cases e
        simp at he
        simp [he]
      rw [hek]
      exact List.mem_cons_self e es
    · simp [lookupKey, he] at h
      exact List.mem_cons_of_mem _ (ih h)

theorem lookupKey_none_forall {k : List Char} {l : List (List Char × List Char)}
    (h : lookupKey k l = none) : ∀ e ∈ l, e.1 ≠ k := by
  induction l with
  | nil => intro e he; simp at he
  | cons a as ih =>
    by_cases ha : a.1 = k
    · simp [lookupKey, ha] at h
    · intro e he
      rcases List.mem_cons.mp he with h1 | h2
      · subst h1; exact ha
      · simp [lookupKey, ha] at h
        exact ih h e h2

theorem lookupKey_eq_none_of_forall {k : List Char} {l : List (List Char × List Char)}
    (h : ∀ e ∈ l, e.1 ≠ k) : lookupKey k l = none := by
  induction l with
  | nil => rfl
  | cons a as ih =>
    have ha : a.1 ≠ k := h a (List.mem_cons_self a as)
    simp [lookupKey, ha]
    exact ih (fun e he => h e (List.mem_cons_of_mem a he))

theorem mem_eraseKey {k : List Char} {e : List Char × List Char}
    {l : List (List Char × List Char)} (h : e ∈ eraseKey k l) : e ∈ l :=
  List.mem_of_mem_filter h

theorem eraseKey_keys_ne {k : List Char} {e : List Char × List Char}
    {l : List (List Char × List Char)} (h : e ∈ eraseKey k l) : e.1 ≠ k := by
  have := List.of_mem_filter h
  simpa using this

theorem eraseKey_of_none {k : List Char} {l : List (List Char × List Char)}
    (h : lookupKey k l = none) : eraseKey k l = l := by
  apply List.filter_eq_self.mpr
  intro e he
  simpa using lookupKey_none_forall h e he

theorem lookupKey_append_left_none {k : List Char}
    {xs ys : List (List Char × List Char)} (h : lookupKey k xs = none) :
    lookupKey k (xs ++ ys) = lookupKey k ys := by
  induction xs with
  | nil => rfl
  | cons a as ih =>
    by_cases ha : a.1 = k
    · simp [lookupKey, ha] at h
    · simp [lookupKey, ha] at h ⊢
      exact ih h

theorem lookupKey_keysne_concat {k r : List Char}
    {xs : List (List Char × List Char)} (h : ∀ e ∈ xs, e.1 ≠ k) :
    lookupKey k (xs ++ [(k, r)]) = some r := by
  rw [lookupKey_append_left_none (lookupKey_eq_none_of_forall h)]
  simp [lookupKey]

theorem eraseKey_length_lt {k v : List Char} {l : List (List Char × List Char)}
    (h : lookupKey k l = some v) : (eraseKey k l).length < l.length := by
  have hmem : (k, v) ∈ l := lookupKey_some_mem h
  refine List.length_filter_lt_length_iff_exists.mpr ?h
  exact ⟨(k, v), hmem, by simp⟩

theorem eraseKey_length_le (k : List Char) (l : List (List Char × List Char)) :
    (eraseKey k l).length ≤ l.length :=
  List.length_filter_le _ _

theorem lookupKey_append (k : List Char) (xs ys : List (List Char × List Char)) :
    lookupKey k (xs ++ ys) =
      (match lookupKey k xs with
       | some v => some v
       | none => lookupKey k ys) := by
  induction xs with
  | nil => rfl
  | cons a as ih =>
    by_cases ha : a.1 = k
    · simp [lookupKey, ha]
    · simpa [lookupKey, ha] using ih

theorem lookupKey_eraseKey_ne {k k0 : List Char} (hk : k ≠ k0)
    (l : List (List Char × List Char)) :
    lookupKey k (eraseKey k0 l) = lookupKey k l := by
  induction l with
  | nil => rfl
  | cons a as ih =>
    by_cases ha0 : a.1 = k0
    · have hak : a.1 ≠ k := fun h => hk (h ▸ ha0)
      have h1 : eraseKey k0 (a :: as) = eraseKey k0 as := by
        simp [eraseKey, List.filter_cons, ha0]
      rw [h1, ih]
      simp [lookupKey, hak]
    · have h1 : eraseKey k0 (a :: as) = a :: eraseKey k0 as := by
        simp [eraseKey, List.filter_cons, ha0]
      rw [h1]
      by_cases hak : a.1 = k
      · simp [lookupKey, hak]
      · simp [lookupKey, hak]
        exact ih

/-- `get` never changes the key → value mapping (a hit only reorders). -/
theorem lookupKey_moveToEnd (k0 k : List Char) (l : List (List Char × List Char)) :
    lookupKey k (moveToEnd k0 l) = lookupKey k l := by
  unfold moveToEnd
  cases hl : lookupKey k0 l with
  | none => rfl
  | some v =>
    by_cases hk : k = k0
    · subst hk
      rw [lookupKey_keysne_concat (fun e he => eraseKey_keys_ne he), hl]
    · rw [lookupKey_append, lookupKey_eraseKey_ne hk]
      cases h : lookupKey k l with
      | none =>
        have hk' : ¬ k0 = k := fun h => hk h.symm
        simp [lookupKey, hk']
      | some w => rfl

theorem hashQuery_congr {q q' : List Char} (p : Option (List Char))
    (h : normQuery q' = normQuery q) : hashQuery q' p = hashQuery q p := by
  unfold hashQuery
  rw [h]

theorem get_eq_of_disabled {c : ResponseCache} (q : List Char)
    (p : Option (List Char)) (hb : c.enabled = false) : c.get q p = (none, c) := by
  unfold ResponseCache.get
  simp [hb]

theorem get_eq_of_miss {c : ResponseCache} {q : List Char} {p : Option (List Char)}
    (hb : c.enabled = true) (hl : lookupKey (hashQuery q p) c.cache = none) :
    c.get q p = (none, c) := by
  unfold ResponseCache.get
  simp [hb, hl]

theorem get_eq_of_hit {c : ResponseCache} {q : List Char} {p : Option (List Char)}
    {v : List Char} (hb : c.enabled = true)
    (hl : lookupKey (hashQuery q p) c.cache = some v) :
    c.get q p =
      (some v,
        { c with cache := eraseKey (hashQuery q p) c.cache ++ [(hashQuery q p, v)] }) := by
  unfold ResponseCache.get
  simp only [hb, Bool.true_eq_false, if_false, hl]
  unfold moveToEnd
  rw [hl]

theorem set_eq_of_disabled {c : ResponseCache} (q r : List Char)
    (p : Option (List Char)) (hb : c.enabled = false) : c.set q r p = c := by
  unfold ResponseCache.set
  simp [hb]

theorem set_eq_of_enabled {c : ResponseCache} (q r : List Char)
    (p : Option (List Char)) (hb : c.enabled = true) :
    c.set q r p =
      { c with cache :=
          if c.max_size < (eraseKey (hashQuery q p) c.cache ++ [(hashQuery q p, r)]).length
          then (eraseKey (hashQuery q p) c.cache ++ [(hashQuery q p, r)]).drop 1
          else eraseKey (hashQuery q p) c.cache ++ [(hashQuery q p, r)] } := by
  unfold ResponseCache.set
  simp only [hb, Bool.true_eq_false, if_false]
  split
  · rfl
  · rfl

theorem set_enabled (c : ResponseCache) (q r : List Char) (p : Option (List Char)) :
    (c.set q r p).enabled = c.enabled := by
  cases hb : c.enabled
  · rw [set_eq_of_disabled q r p hb, hb]
  · rw [set_eq_of_enabled q r p hb]
    exact hb

theorem set_max_size (c : ResponseCache) (q r : List Char) (p : Option (List Char)) :
    (c.set q r p).max_size = c.max_size := by
  cases hb : c.enabled
  · rw [set_eq_of_disabled q r p hb]
  · rw [set_eq_of_enabled q r p hb]

theorem get_snd_enabled (c : ResponseCache) (q : List Char) (p : Option (List Char)) :
    ((c.get q p).2).enabled = c.enabled := by
  cases hb : c.enabled
  · rw [get_eq_of_disabled q p hb, hb]
  · cases hl : lookupKey (hashQuery q p) c.cache with
    | none => rw [get_eq_of_miss hb hl, hb]
    | some v =>
      rw [get_eq_of_hit hb hl]
      exact hb

theorem get_snd_max_size (c : ResponseCache) (q : List Char) (p : Option (List Char)) :
    ((c.get q p).2).max_size = c.max_size := by
  cases hb : c.enabled
  · rw [get_eq_of_disabled q p hb]
  · cases hl : lookupKey (hashQuery q p) c.cache with
    | none => rw [get_eq_of_miss hb hl]
    | some v => rw [get_eq_of_hit hb hl]

theorem applyOp_max_size (c : ResponseCache) (op : CacheOp) :
    (applyOp c op).max_size = c.max_size := by
  cases op with
  | get q p => exact get_snd_max_size c q p
  | set q r p => exact set_max_size c q r p
  | clear => rfl

theorem applyOp_length_le (c : ResponseCache) (op : CacheOp)
    (h : c.cache.length ≤ c.max_size) :
    (applyOp c op).cache.length ≤ c.max_size := by
  cases op with
  | get q p =>
    show ((c.get q p).2).cache.length ≤ c.max_size
    cases hb : c.enabled
    · rw [get_eq_of_disabled q p hb]
      exact h
    · cases hl : lookupKey (hashQuery q p) c.cache with
      | none =>
        rw [get_eq_of_miss hb hl]
        exact h
      | some v =>
        rw [get_eq_of_hit hb hl]
        have h1 : (eraseKey (hashQuery q p) c.cache).length < c.cache.length :=
          eraseKey_length_lt hl
        simp only [List.length_append, List.length_cons, List.length_nil]
        omega
  | set q r p =>
    show (c.set q r p).cache.length ≤ c.max_size
    cases hb : c.enabled
    · rw [set_eq_of_disabled q r p hb]
      exact h
    · rw [set_eq_of_enabled q r p hb]
      have h1 : (eraseKey (hashQuery q p) c.cache).length ≤ c.cache.length :=
        eraseKey_length_le _ _
      simp only
      split
      · rename_i hlt
        simp only [List.length_drop, List.length_append, List.length_cons,
          List.length_nil] at hlt ⊢
        omega
      · rename_i hge
        simp only [List.length_append, List.length_cons, List.length_nil] at hge ⊢
        omega
  | clear =>
    show ([] : List (List Char × List Char)).length ≤ c.max_size
    simp

theorem foldl_applyOp_le (ops : List CacheOp) (c : ResponseCache)
    (h : c.cache.length ≤ c.max_size) :
    ((ops.foldl applyOp c).cache.length ≤ (ops.foldl applyOp c).max_size) := by
  induction ops generalizing c with
  | nil => simpa using h
  | cons op ops ih =>
    simp only [List.foldl_cons]
    exact ih (applyOp c op) (by rw [applyOp_max_size]; exact applyOp_length_le c op h)

/-- C4: for every sequence of get/set/clear operations starting from a cache
within capacity, the entry count stays within `max_size` after every
operation; an insert of a fresh key at capacity evicts exactly the head
(least-recently-used) entry; every set on an enabled cache leaves the written
entry at the most-recently-used end (for a positive capacity — with
`max_size = 0` the entry is itself the transient LRU and is evicted again);
and a get hit moves the touched entry to the most-recently-used end. -/
theorem C4_cache_lru_invariants (c : ResponseCache) (h : c.cache.length ≤ c.max_size) :
    (∀ ops : List CacheOp,
        (ops.foldl applyOp c).cache.length ≤ (ops.foldl applyOp c).max_size) ∧
    (∀ q r p, c.enabled = true → c.cache.length = c.max_size →
        lookupKey (hashQuery q p) c.cache = none →
        (c.set q r p).cache = (c.cache ++ [(hashQuery q p, r)]).drop 1) ∧
    (∀ q r p, c.enabled = true → 1 ≤ c.max_size →
        (c.set q r p).cache.getLast? = some (hashQuery q p, r)) ∧
    (∀ q p v, c.enabled = true → lookupKey (hashQuery q p) c.cache = some v →
        ((c.get q p).2).cache.getLast? = some (hashQuery q p, v)) := by
  refine ⟨fun ops => foldl_applyOp_le ops c h, ?evict, ?promoteSet, ?promoteGet⟩
  case evict =>
    intro q r p hen hfull hfresh
    rw [set_eq_of_enabled q r p hen]
    simp only
    rw [eraseKey_of_none hfresh]
    have hlen : c.max_size < (c.cache ++ [(hashQuery q p, r)]).length := by
      simp [← hfull]
    rw [if_pos hlen]
  case promoteSet =>
    intro q r p hen hpos
    rw [set_eq_of_enabled q r p hen]
    simp only
    split
    · rename_i hlt
      cases herase : eraseKey (hashQuery q p) c.cache with
      | nil =>
        rw [herase] at hlt
        simp at hlt
        omega
      | cons e es => simp
    · simp
  case promoteGet =>
    intro q p v hen hhit
    rw [get_eq_of_hit hen hhit]
    simp

/-- C4 witness at a concrete two-entry cache of capacity 2. -/
theorem C4_cache_lru_invariants_witness :
    (([CacheOp.set ("c".toList) ("rc".toList) none].foldl applyOp
        (ResponseCache.mk 2 [("a".toList, "ra".toList), ("b".toList, "rb".toList)] true)).cache.length ≤
      ([CacheOp.set ("c".toList) ("rc".toList) none].foldl applyOp
        (ResponseCache.mk 2 [("a".toList, "ra".toList), ("b".toList, "rb".toList)] true)).max_size) ∧
    ((ResponseCache.mk 2 [("a".toList, "ra".toList), ("b".toList, "rb".toList)] true).set
        ("c".toList) ("rc".toList) none).cache =
      (((ResponseCache.mk 2 [("a".toList, "ra".toList), ("b".toList, "rb".toList)] true).cache ++
        [(hashQuery ("c".toList) none, "rc".toList)]).drop 1) ∧
    (((ResponseCache.mk 2 [("a".toList, "ra".toList), ("b".toList, "rb".toList)] true).set
        ("c".toList) ("rc".toList) none).cache.getLast? =
      some (hashQuery ("c".toList) none, "rc".toList)) ∧
    ((((ResponseCache.mk 2 [("a".toList, "ra".toList), ("b".toList, "rb".toList)] true).get
        ("a".toList) none).2).cache.getLast? =
      some (hashQuery ("a".toList) none, "ra".toList)) := by
  have h := C4_cache_lru_invariants
    (ResponseCache.mk 2 [("a".toList, "ra".toList), ("b".toList, "rb".toList)] true)
    (by decide)
  exact ⟨h.1 [CacheOp.set ("c".toList) ("rc".toList) none],
    h.2.1 ("c".toList) ("rc".toList) none rfl (by decide) (by decide),
    h.2.2.1 ("c".toList) ("rc".toList) none rfl (by decide),
    h.2.2.2 ("a".toList) none ("ra".toList) rfl (by decide)⟩

/-- C5: on an enabled cache of positive capacity (so the freshly written
entry is not itself evicted by the write), `set` immediately followed by
`get` with a query equal up to case and surrounding whitespace and the same
personality hash returns exactly the stored response. -/
theorem C5_cache_roundtrip (c : ResponseCache) (q q' r : List Char)
    (p : Option (List Char)) (hen : c.enabled = true) (hpos : 1 ≤ c.max_size)
    (hq : normQuery q' = normQuery q) :
    ((c.set q r p).get q' p).1 = some r := by
  have hb' : (c.set q r p).enabled = true := by
    rw [set_enabled]
    exact hen
  have hkey : hashQuery q' p = hashQuery q p := hashQuery_congr p hq
  have hlook : lookupKey (hashQuery q p) (c.set q r p).cache = some r := by
    rw [set_eq_of_enabled q r p hen]
    simp only
    split
    · rename_i hlt
      cases herase : eraseKey (hashQuery q p) c.cache with
      | nil =>
        rw [herase] at hlt
        simp at hlt
        omega
      | cons e es =>
        simp only [List.cons_append, List.drop_succ_cons, List.drop_zero]
        apply lookupKey_keysne_concat
        intro x hx
        have hx' : x ∈ eraseKey (hashQuery q p) c.cache := by
          rw [herase]
          exact List.mem_cons_of_mem _ hx
        exact eraseKey_keys_ne hx'
    · apply lookupKey_keysne_concat
      intro x hx
      exact eraseKey_keys_ne hx
  have hget := get_eq_of_hit (c := c.set q r p) (q := q') (p := p) hb'
    (by rw [hkey]; exact hlook)
  rw [hget]

/-- C5 witness: capitalised, padded query variant still hits. -/
theorem C5_cache_roundtrip_witness :
    (((ResponseCache.mk 3 [] true).set ("What is your name?".toList)
        ("I am TARS.".toList) (some ("75_90".toList))).get
      ("  WHAT IS YOUR NAME?  ".toList) (some ("75_90".toList))).1 =
      some ("I am TARS.".toList) :=
  C5_cache_roundtrip (ResponseCache.mk 3 [] true) ("What is your name?".toList)
    ("  WHAT IS YOUR NAME?  ".toList) ("I am TARS.".toList)
    (some ("75_90".toList)) rfl (by decide) (by decide)

/-- C6: while disabled, `get` always misses and `set` is a strict no-op;
`disable` and `enable` leave the stored entries untouched, so after
re-enabling every lookup behaves as on the originally enabled cache. -/
theorem C6_disabled_cache_frame (c : ResponseCache) (q q2 r : List Char)
    (p p2 : Option (List Char)) :
    ((c.disable).get q p) = (none, c.disable) ∧
    ((c.disable).set q r p) = c.disable ∧
    (c.disable).cache = c.cache ∧
    ((c.disable).enable).cache = c.cache ∧
    (((c.disable).enable).get q2 p2) = ((c.enable).get q2 p2) := by
  refine ⟨?g1, ?g2, rfl, rfl, rfl⟩
  case g1 => exact get_eq_of_disabled q p rfl
  case g2 => exact set_eq_of_disabled q r p rfl

/-! ### Decimal fingerprint lemmas -/

theorem decDigit_ne_underscore : ∀ d, d < 10 → decDigit d ≠ '_' := by
  decide

theorem natReprAux_no_underscore : ∀ fuel n, '_' ∉ natReprAux fuel n := by
  intro fuel
  induction fuel with
  | zero =>
    intro n h
    simp [natReprAux] at h
  | succ f ih =>
    intro n h
    by_cases h10 : n < 10
    · simp [natReprAux, h10] at h
      exact decDigit_ne_underscore n h10 h.symm
    · simp [natReprAux, h10] at h
      rcases h with h | h
      · exact ih (n / 10) h
      · exact decDigit_ne_underscore (n % 10) (Nat.mod_lt n (by norm_num)) h.symm

theorem natRepr_no_underscore (n : Nat) : '_' ∉ natRepr n :=
  natReprAux_no_underscore (n + 1) n

theorem digitVal_decDigit : ∀ d, d < 10 → digitVal (decDigit d) = d := by
  decide

theorem unrepr_concat (xs : List Char) (d : Char) :
    unrepr (xs ++ [d]) = 10 * unrepr xs + digitVal d := by
  unfold unrepr
  rw [List.foldl_append]
  rfl

theorem unrepr_natReprAux : ∀ fuel n, n < fuel → unrepr (natReprAux fuel n) = n := by
  intro fuel
  induction fuel with
  | zero =>
    intro n h
    omega
  | succ f ih =>
    intro n h
    by_cases h10 : n < 10
    · show unrepr (natReprAux (f + 1) n) = n
      unfold natReprAux
      rw [if_pos h10]
      show 10 * 0 + digitVal (decDigit n) = n
      rw [digitVal_decDigit n h10]
      omega
    · show unrepr (natReprAux (f + 1) n) = n
      unfold natReprAux
      rw [if_neg h10]
      rw [unrepr_concat]
      have hdiv : n / 10 < f := by
        have h1 : n / 10 < n := Nat.div_lt_self (by omega) (by norm_num)
        omega
      rw [ih (n / 10) hdiv, digitVal_decDigit (n % 10) (Nat.mod_lt n (by norm_num))]
      omega

theorem unrepr_natRepr (n : Nat) : unrepr (natRepr n) = n :=
  unrepr_natReprAux (n + 1) n (by omega)

theorem natRepr_inj {a b : Nat} (h : natRepr a = natRepr b) : a = b := by
  calc a = unrepr (natRepr a) := (unrepr_natRepr a).symm
    _ = unrepr (natRepr b) := by rw [h]
    _ = b := unrepr_natRepr b

theorem underscore_split :
    ∀ (xs1 xs2 ys1 ys2 : List Char), '_' ∉ xs1 → '_' ∉ xs2 →
      xs1 ++ '_' :: ys1 = xs2 ++ '_' :: ys2 → xs1 = xs2 ∧ ys1 = ys2 := by
  intro xs1
  induction xs1 with
  | nil =>
    intro xs2 ys1 ys2 h1 h2 heq
    cases xs2 with
    | nil =>
      simp at heq
      exact ⟨rfl, heq⟩
    | cons b u =>
      simp at heq
      exact absurd (heq.1.symm ▸ List.mem_cons_self b u) h2
  | cons a t ih =>
    intro xs2 ys1 ys2 h1 h2 heq
    cases xs2 with
    | nil =>
      simp at heq
      exact absurd (heq.1 ▸ List.mem_cons_self a t) h1
    | cons b u =>
      simp at heq
      have h1' : '_' ∉ t := fun hm => h1 (List.mem_cons_of_mem a hm)
      have h2' : '_' ∉ u := fun hm => h2 (List.mem_cons_of_mem b hm)
      have := ih u ys1 ys2 h1' h2' heq.2
      exact ⟨by rw [heq.1, this.1], this.2⟩

theorem fingerprint_inj {h1 o1 h2 o2 : Nat}
    (h : fingerprint h1 o1 = fingerprint h2 o2) : h1 = h2 ∧ o1 = o2 := by
  unfold fingerprint at h
  have := underscore_split (natRepr h1) (natRepr h2) (natRepr o1) (natRepr o2)
    (natRepr_no_underscore h1) (natRepr_no_underscore h2) h
  exact ⟨natRepr_inj this.1, natRepr_inj this.2⟩

theorem fingerprint_ne_nil (h o : Nat) : fingerprint h o ≠ [] := by
  unfold fingerprint
  simp

theorem hashQuery_fingerprint (q : List Char) (h o : Nat) :
    hashQuery q (some (fingerprint h o)) = normQuery q ++ fingerprint h o := by
  unfold hashQuery
  simp [fingerprint_ne_nil h o]

/-- C9: distinct (humor, honesty) pairs give distinct cache keys for the same
query, and a response stored under one fingerprint never turns a lookup under
a different fingerprint from a miss into a hit. -/
theorem C9_fingerprint_partitions_cache (q : List Char) (h1 o1 h2 o2 : Nat)
    (hne : (h1, o1) ≠ (h2, o2)) :
    hashQuery q (some (fingerprint h1 o1)) ≠ hashQuery q (some (fingerprint h2 o2)) ∧
    (∀ (c : ResponseCache) (r : List Char), c.enabled = true →
      lookupKey (hashQuery q (some (fingerprint h2 o2))) c.cache = none →
      ((c.set q r (some (fingerprint h1 o1))).get q (some (fingerprint h2 o2))).1 =
        none) := by
  have hkeys : hashQuery q (some (fingerprint h1 o1)) ≠
      hashQuery q (some (fingerprint h2 o2)) := by
    rw [hashQuery_fingerprint, hashQuery_fingerprint]
    intro h
    have hfp : fingerprint h1 o1 = fingerprint h2 o2 := List.append_cancel_left h
    have := fingerprint_inj hfp
    exact hne (by rw [this.1, this.2])
  refine ⟨hkeys, fun c r hen hmiss => ?_⟩
  have hb' : (c.set q r (some (fingerprint h1 o1))).enabled = true := by
    rw [set_enabled]
    exact hen
  have hall : ∀ e ∈ (c.set q r (some (fingerprint h1 o1))).cache,
      e.1 ≠ hashQuery q (some (fingerprint h2 o2)) := by
    intro e he
    rw [set_eq_of_enabled q r (some (fingerprint h1 o1)) hen] at he
    simp only at he
    have hl1 : e ∈ eraseKey (hashQuery q (some (fingerprint h1 o1))) c.cache ++
        [(hashQuery q (some (fingerprint h1 o1)), r)] := by
      by_cases hc : c.max_size <
          (eraseKey (hashQuery q (some (fingerprint h1 o1))) c.cache ++
            [(hashQuery q (some (fingerprint h1 o1)), r)]).length
      · rw [if_pos hc] at he
        exact List.mem_of_mem_drop he
      · rw [if_neg hc] at he
        exact he
    rcases List.mem_append.mp hl1 with hm | hm
    · exact lookupKey_none_forall hmiss e (mem_eraseKey hm)
    · simp at hm
      rw [hm]
      exact hkeys
  have hmiss' := lookupKey_eq_none_of_forall hall
  rw [get_eq_of_miss hb' hmiss']

/-! ### TTS worker lemmas -/

theorem pstrip_eq_rdropWhile (s : List Char) :
    pstrip s = List.rdropWhile pySpace (s.dropWhile pySpace) := rfl

theorem pstrip_idem (s : List Char) : pstrip (pstrip s) = pstrip s := by
  rw [pstrip_eq_rdropWhile s, pstrip_eq_rdropWhile]
  have hpre : List.rdropWhile pySpace (s.dropWhile pySpace) <+: s.dropWhile pySpace :=
    List.rdropWhile_prefix _ _
  have hdrop : List.dropWhile pySpace (List.rdropWhile pySpace (s.dropWhile pySpace)) =
      List.rdropWhile pySpace (s.dropWhile pySpace) := by
    rw [List.dropWhile_eq_self_iff]
    intro hl
    have h0 : 0 < (s.dropWhile pySpace).length := by
      obtain ⟨t, ht⟩ := hpre
      rw [← ht]
      simp only [List.length_append]
      omega
    have hget : (List.rdropWhile pySpace (s.dropWhile pySpace)).get ⟨0, hl⟩ =
        (s.dropWhile pySpace).get ⟨0, h0⟩ := by
      simp only [List.get_eq_getElem]
      exact List.IsPrefix.getElem hpre hl
    rw [hget]
    exact List.dropWhile_get_zero_not pySpace s h0
  rw [hdrop, List.rdropWhile_idempotent]

theorem speakEvents_idx {i : Nat} {text : List Char} {cb : Bool} {oc : SynthOutcome}
    {e : TtsEvent} (h : e ∈ speakEvents i text cb oc) : eventIdx e = i := by
  unfold speakEvents at h
  split at h
  · split at h
    · simp at h
      rw [h]
      rfl
    · simp at h
  · cases oc <;> cases cb
    case synthRaises.true | noFile.true =>
      simp at h
      rcases h with rfl | rfl <;> rfl
    case synthRaises.false | noFile.false =>
      simp at h
      rw [h]
      rfl
    case ok.true | playRaises.true =>
      simp at h
      rcases h with rfl | rfl | rfl <;> rfl
    case ok.false | playRaises.false =>
      simp at h
      rcases h with rfl | rfl <;> rfl

theorem workerRun_idx_ge : ∀ (tasks : List (List Char × Bool)) (n : Nat)
    (oracle : Nat → SynthOutcome) (e : TtsEvent),
    e ∈ workerRun oracle n tasks → n ≤ eventIdx e := by
  intro tasks
  induction tasks with
  | nil =>
    intro n oracle e h
    simp [workerRun] at h
  | cons t rest ih =>
    intro n oracle e h
    unfold workerRun at h
    rcases List.mem_append.mp h with h1 | h1
    · split at h1
      · simp at h1
      · rw [speakEvents_idx h1]
    · have := ih (n + 1) oracle e h1
      omega

theorem speakEvents_cb_count (i j : Nat) (text : List Char) (cb : Bool)
    (oc : SynthOutcome) :
    ((speakEvents i text cb oc).filter (fun e => e = TtsEvent.cbFire j)).length =
      if i = j ∧ cb = true then 1 else 0 := by
  unfold speakEvents
  by_cases hi : i = j
  · subst hi
    split
    · cases cb <;> simp
    · cases oc <;> cases cb <;> simp
  · split
    · cases cb <;> simp [hi]
    · cases oc <;> cases cb <;> simp [hi]

theorem speakEvents_synth_count (i j : Nat) (text : List Char) (cb : Bool)
    (oc : SynthOutcome) :
    ((speakEvents i text cb oc).filter (fun e => e = TtsEvent.synthAttempt j)).length =
      if i = j ∧ pstrip text ≠ [] then 1 else 0 := by
  unfold speakEvents
  by_cases hi : i = j
  · subst hi
    split
    · rename_i hst
      cases cb <;> simp [hst]
    · rename_i hst
      cases oc <;> cases cb <;> simp [hst]
  · split
    · cases cb <;> simp [hi]
    · cases oc <;> cases cb <;> simp [hi]

theorem workerRun_tail_count_zero (rest : List (List Char × Bool)) (n : Nat)
    (oracle : Nat → SynthOutcome) (e0 : TtsEvent) (he0 : eventIdx e0 < n) :
    ((workerRun oracle n rest).filter (fun e => e = e0)).length = 0 := by
  rw [List.length_eq_zero]
  rw [List.filter_eq_nil_iff]
  intro e he hc
  simp at hc
  subst hc
  have := workerRun_idx_ge rest n oracle e he
  omega

theorem workerRun_cb_count : ∀ (tasks : List (List Char × Bool)) (n i : Nat)
    (oracle : Nat → SynthOutcome) (hi : i < tasks.length),
    ((workerRun oracle n tasks).filter (fun e => e = TtsEvent.cbFire (n + i))).length =
      if pstrip (tasks.get ⟨i, hi⟩).1 ≠ [] ∧ (tasks.get ⟨i, hi⟩).2 = true
      then 1 else 0 := by
  intro tasks
  induction tasks with
  | nil =>
    intro n i oracle hi
    simp at hi
  | cons t rest ih =>
    intro n i oracle hi
    show ((((if pstrip t.1 = [] then [] else
        speakEvents n (pstrip t.1) t.2 (oracle n)) ++
          workerRun oracle (n + 1) rest)).filter
        (fun e => e = TtsEvent.cbFire (n + i))).length = _
    rw [List.filter_append, List.length_append]
    cases i with
    | zero =>
      have htail := workerRun_tail_count_zero rest (n + 1) oracle
        (TtsEvent.cbFire (n + 0)) (by simp [eventIdx])
      rw [htail]
      by_cases hst : pstrip t.1 = []
      · simp [hst]
      · rw [if_neg hst]
        have := speakEvents_cb_count n (n + 0) (pstrip t.1) t.2 (oracle n)
        rw [this]
        simp [hst]
    | succ i' =>
      have hhead : ((if pstrip t.1 = [] then [] else
          speakEvents n (pstrip t.1) t.2 (oracle n)).filter
            (fun e => e = TtsEvent.cbFire (n + (i' + 1)))).length = 0 := by
        by_cases hst : pstrip t.1 = []
        · simp [hst]
        · rw [if_neg hst]
          have := speakEvents_cb_count n (n + (i' + 1)) (pstrip t.1) t.2 (oracle n)
          rw [this]
          have : ¬ (n = n + (i' + 1)) := by omega
          simp [this]
      rw [hhead]
      have harith : n + (i' + 1) = (n + 1) + i' := by omega
      rw [harith]
      have := ih (n + 1) i' oracle (by simpa using hi)
      rw [this]
      simp

theorem workerRun_synth_count : ∀ (tasks : List (List Char × Bool)) (n i : Nat)
    (oracle : Nat → SynthOutcome) (hi : i < tasks.length),
    ((workerRun oracle n tasks).filter
        (fun e => e = TtsEvent.synthAttempt (n + i))).length =
      if pstrip (tasks.get ⟨i, hi⟩).1 ≠ [] then 1 else 0 := by
  intro tasks
  induction tasks with
  | nil =>
    intro n i oracle hi
    simp at hi
  | cons t rest ih =>
    intro n i oracle hi
    show ((((if pstrip t.1 = [] then [] else
        speakEvents n (pstrip t.1) t.2 (oracle n)) ++
          workerRun oracle (n + 1) rest)).filter
        (fun e => e = TtsEvent.synthAttempt (n + i))).length = _
    rw [List.filter_append, List.length_append]
    cases i with
    | zero =>
      have htail := workerRun_tail_count_zero rest (n + 1) oracle
        (TtsEvent.synthAttempt (n + 0)) (by simp [eventIdx])
      rw [htail]
      by_cases hst : pstrip t.1 = []
      · simp [hst]
      · rw [if_neg hst]
        have := speakEvents_synth_count n (n + 0) (pstrip t.1) t.2 (oracle n)
        rw [this]
        rw [pstrip_idem]
        simp [hst]
    | succ i' =>
      have hhead : ((if pstrip t.1 = [] then [] else
          speakEvents n (pstrip t.1) t.2 (oracle n)).filter
            (fun e => e = TtsEvent.synthAttempt (n + (i' + 1)))).length = 0 := by
        by_cases hst : pstrip t.1 = []
        · simp [hst]
        · rw [if_neg hst]
          have := speakEvents_synth_count n (n + (i' + 1)) (pstrip t.1) t.2 (oracle n)
          rw [this]
          have : ¬ (n = n + (i' + 1)) := by omega
          simp [this]
      rw [hhead]
      have harith : n + (i' + 1) = (n + 1) + i' := by omega
      rw [harith]
      have := ih (n + 1) i' oracle (by simpa using hi)
      rw [this]
      simp

/-- C8: a queued speech task whose text is non-empty after trimming has its
completion callback fired exactly once by the worker, whatever the
synthesis/playback outcomes of any tasks are; and its synthesis is attempted
exactly once — earlier failing tasks neither kill the worker loop nor skip
later tasks. -/
theorem C8_worker_callback_exactly_once (tasks : List (List Char × Bool))
    (oracle : Nat → SynthOutcome) (i : Nat) (hi : i < tasks.length)
    (hne : pstrip (tasks.get ⟨i, hi⟩).1 ≠ []) :
    ((tasks.get ⟨i, hi⟩).2 = true →
      ((workerRun oracle 0 tasks).filter (fun e => e = TtsEvent.cbFire i)).length = 1) ∧
    ((workerRun oracle 0 tasks).filter
        (fun e => e = TtsEvent.synthAttempt i)).length = 1 := by
  constructor
  · intro hcb
    have h := workerRun_cb_count tasks 0 i oracle hi
    simp only [Nat.zero_add] at h
    rw [h, if_pos ⟨hne, hcb⟩]
  · have h := workerRun_synth_count tasks 0 i oracle hi
    simp only [Nat.zero_add] at h
    rw [h, if_pos hne]

/-! ### Pipeline run lemmas -/

theorem get_snd_lookup (c : ResponseCache) (q : List Char) (ph : Option (List Char))
    (k : List Char) :
    lookupKey k ((c.get q ph).2).cache = lookupKey k c.cache := by
  cases hb : c.enabled
  · rw [get_eq_of_disabled q ph hb]
  · cases hl : lookupKey (hashQuery q ph) c.cache with
    | none => rw [get_eq_of_miss hb hl]
    | some v =>
      rw [get_eq_of_hit hb hl]
      have h := lookupKey_moveToEnd (hashQuery q ph) k c.cache
      unfold moveToEnd at h
      rw [hl] at h
      exact h

theorem processQueryRun_eq_hit (p : PipeIn) (r : List Char)
    (hhit : (p.cache.get p.query (some (fingerprint p.humor p.honesty))).1 = some r)
    (hrne : r ≠ []) :
    processQueryRun p =
      { trace := (if p.hasOnStart then [PEvent.onStart] else []) ++
          (if p.hasOnSentence then [PEvent.onSentence r] else []) ++
          [PEvent.yieldUnit r]
        yields := [r]
        tasks := speakAsync r p.hasOnComplete
        cacheAfter := (p.cache.get p.query (some (fingerprint p.humor p.honesty))).2
        is_processing := false
        raised := false } := by
  simp only [processQueryRun]
  rw [hhit]
  simp only
  rw [if_neg hrne]

theorem processQueryRun_eq_missRun (p : PipeIn)
    (hmiss : truthyHit
      (p.cache.get p.query (some (fingerprint p.humor p.honesty))).1 = false) :
    processQueryRun p =
      missRun p ((p.cache.get p.query (some (fingerprint p.humor p.honesty))).2)
        (if p.hasOnStart then [PEvent.onStart] else []) := by
  simp only [processQueryRun]
  cases hg : (p.cache.get p.query (some (fingerprint p.humor p.honesty))).1 with
  | none => simp only
  | some r =>
    rw [hg] at hmiss
    simp only [truthyHit, Bool.not_eq_false'] at hmiss
    have hrnil : r = [] := List.isEmpty_iff.mp hmiss
    simp only
    rw [if_pos hrnil]

theorem unitEvents_ne_onComplete {hs : Bool} {u : List Char} {e : PEvent}
    (h : e ∈ unitEvents hs u) : e ≠ PEvent.onComplete := by
  unfold unitEvents at h
  cases hs <;> simp at h
  · rw [h]
    simp
  · rcases h with h | h <;> rw [h] <;> simp

theorem count_onComplete_zero {l : List PEvent}
    (h : ∀ e ∈ l, e ≠ PEvent.onComplete) :
    (l.filter (fun e => e = PEvent.onComplete)).length = 0 := by
  rw [List.length_eq_zero, List.filter_eq_nil_iff]
  intro e he hc
  simp at hc
  exact h e he hc

theorem flatMap_unitEvents_ne_onComplete (hs : Bool) (us : List (List Char))
    (e : PEvent) (h : e ∈ us.flatMap (unitEvents hs)) : e ≠ PEvent.onComplete := by
  rcases List.mem_flatMap.mp h with ⟨u, _, hu⟩
  exact unitEvents_ne_onComplete hu

/-- C3: if the generation service raises during streaming (after a cache
miss), the drained run re-raises to the caller, `on_complete` has fired
exactly once and immediately before the exception propagates, the
`is_processing` flag is clear, and the cache mapping is unchanged — the
partial response is not written (the initial lookup can at most reorder
recency of an existing entry, never change any key's value). -/
theorem C3_generation_failure_cleanup (p : PipeIn)
    (hmiss : truthyHit
      (p.cache.get p.query (some (fingerprint p.humor p.honesty))).1 = false)
    (hraise : p.genRaises = true) (hoc : p.hasOnComplete = true) :
    (processQueryRun p).raised = true ∧
    (processQueryRun p).is_processing = false ∧
    ((processQueryRun p).trace.filter (fun e => e = PEvent.onComplete)).length = 1 ∧
    (∃ pre, (processQueryRun p).trace = pre ++ [PEvent.onComplete, PEvent.raised]) ∧
    (∀ k, lookupKey k (processQueryRun p).cacheAfter.cache = lookupKey k p.cache.cache) ∧
    (processQueryRun p).cacheAfter.enabled = p.cache.enabled ∧
    (processQueryRun p).cacheAfter.max_size = p.cache.max_size := by
  rw [processQueryRun_eq_missRun p hmiss]
  unfold missRun
  simp only [hraise, hoc, eq_self_iff_true, if_true]
  refine ⟨trivial, trivial, ?count, ?pre, ?map, ?en, ?ms⟩
  case count =>
    rw [List.filter_append, List.filter_append, List.filter_append, List.filter_append]
    rw [List.length_append, List.length_append, List.length_append, List.length_append]
    have h1 : (((if p.hasOnStart then [PEvent.onStart] else []) :
        List PEvent).filter (fun e => e = PEvent.onComplete)).length = 0 := by
      cases p.hasOnStart <;> simp
    have h2 : (([PEvent.genCall] :
        List PEvent).filter (fun e => e = PEvent.onComplete)).length = 0 := by simp
    have h3 := count_onComplete_zero
      (flatMap_unitEvents_ne_onComplete p.hasOnSentence (runFeeds [] p.stream).1)
    have h4 : (([PEvent.onComplete] :
        List PEvent).filter (fun e => e = PEvent.onComplete)).length = 1 := by simp
    have h5 : (([PEvent.raised] :
        List PEvent).filter (fun e => e = PEvent.onComplete)).length = 0 := by simp
    omega
  case pre =>
    refine ⟨(if p.hasOnStart then [PEvent.onStart] else []) ++ [PEvent.genCall] ++
      (runFeeds [] p.stream).1.flatMap (unitEvents p.hasOnSentence), ?_⟩
    simp
  case map =>
    intro k
    exact get_snd_lookup p.cache p.query (some (fingerprint p.humor p.honesty)) k
  case en => exact get_snd_enabled p.cache p.query (some (fingerprint p.humor p.honesty))
  case ms => exact get_snd_max_size p.cache p.query (some (fingerprint p.humor p.honesty))

/-- C3 witness at a concrete failing stream. -/
theorem C3_generation_failure_cleanup_witness :
    (processQueryRun (PipeIn.mk (ResponseCache.mk 2 [] true) 75 90 ("q".toList)
        ["Hel".toList, "lo".toList] true true true true)).raised = true ∧
    ((processQueryRun (PipeIn.mk (ResponseCache.mk 2 [] true) 75 90 ("q".toList)
        ["Hel".toList, "lo".toList] true true true true)).trace.filter
      (fun e => e = PEvent.onComplete)).length = 1 ∧
    (∀ k, lookupKey k (processQueryRun (PipeIn.mk (ResponseCache.mk 2 [] true) 75 90
        ("q".toList) ["Hel".toList, "lo".toList] true true true true)).cacheAfter.cache =
      lookupKey k (ResponseCache.mk 2 [] true).cache) := by
  have h := C3_generation_failure_cleanup
    (PipeIn.mk (ResponseCache.mk 2 [] true) 75 90 ("q".toList)
      ["Hel".toList, "lo".toList] true true true true)
    (by decide) rfl rfl
  exact ⟨h.1, h.2.2.1, h.2.2.2.2.1⟩

theorem speakEvents_cbShape_count (i : Nat) (text : List Char) (oc : SynthOutcome) :
    ((speakEvents i text true oc).filter
      (fun e => match e with | TtsEvent.cbFire _ => true | _ => false)).length = 1 := by
  unfold speakEvents
  split
  · simp
  · cases oc <;> simp

/-- C7 as stated fails when the cached entry is whitespace: `" "` is truthy,
so the hit path is taken and the text is yielded, but `speak_async` drops
whitespace-only text without enqueueing it and without invoking its callback,
so nothing reaches the speech queue and `on_complete` never fires. -/
theorem C7_cache_hit_counterexample :
    ((ResponseCache.mk 5
        [(hashQuery ("q".toList) (some (fingerprint 75 90)), " ".toList)] true).get
      ("q".toList) (some (fingerprint 75 90))).1 = some (" ".toList) ∧
    (processQueryRun (PipeIn.mk
        (ResponseCache.mk 5
          [(hashQuery ("q".toList) (some (fingerprint 75 90)), " ".toList)] true)
        75 90 ("q".toList) [] false true true true)).yields = [" ".toList] ∧
    (processQueryRun (PipeIn.mk
        (ResponseCache.mk 5
          [(hashQuery ("q".toList) (some (fingerprint 75 90)), " ".toList)] true)
        75 90 ("q".toList) [] false true true true)).tasks = [] ∧
    systemOnCompleteCount (PipeIn.mk
        (ResponseCache.mk 5
          [(hashQuery ("q".toList) (some (fingerprint 75 90)), " ".toList)] true)
        75 90 ("q".toList) [] false true true true)
      (fun _ => SynthOutcome.ok) = 0 := by
  refine ⟨by decide, by decide, by decide, by decide⟩

/-- C7 (amended): on a cache hit whose cached text is non-empty after
trimming, the drained run yields the cached text as its single unit, passes
it to `on_sentence`, enqueues exactly its trimmed form (carrying
`on_complete`) on the speech queue, `on_complete` fires exactly once in the
whole system run (by the speech worker, under every synthesis/playback
outcome), and the generation service's streaming interface is never
invoked. -/
theorem C7_cache_hit_short_circuits (p : PipeIn) (r : List Char)
    (hhit : (p.cache.get p.query (some (fingerprint p.humor p.honesty))).1 = some r)
    (hr : pstrip r ≠ []) (hst : p.hasOnStart = true) (hs : p.hasOnSentence = true)
    (hoc : p.hasOnComplete = true) (oracle : Nat → SynthOutcome) :
    (processQueryRun p).yields = [r] ∧
    (processQueryRun p).trace =
      [PEvent.onStart, PEvent.onSentence r, PEvent.yieldUnit r] ∧
    (processQueryRun p).tasks = [(pstrip r, true)] ∧
    systemOnCompleteCount p oracle = 1 ∧
    (∀ e ∈ (processQueryRun p).trace, e ≠ PEvent.genCall) ∧
    (processQueryRun p).raised = false ∧
    (processQueryRun p).is_processing = false := by
  have hrne : r ≠ [] := by
    intro h
    rw [h] at hr
    exact hr rfl
  have hrun := processQueryRun_eq_hit p r hhit hrne
  have htasks : (processQueryRun p).tasks = [(pstrip r, true)] := by
    rw [hrun]
    show speakAsync r p.hasOnComplete = _
    unfold speakAsync
    rw [if_neg hr, hoc]
  have htrace : (processQueryRun p).trace =
      [PEvent.onStart, PEvent.onSentence r, PEvent.yieldUnit r] := by
    rw [hrun]
    show (if p.hasOnStart then [PEvent.onStart] else []) ++
        (if p.hasOnSentence then [PEvent.onSentence r] else []) ++
        [PEvent.yieldUnit r] = _
    rw [hst, hs]
    rfl
  refine ⟨by rw [hrun], htrace, htasks, ?count, ?nogen, by rw [hrun], by rw [hrun]⟩
  case count =>
    unfold systemOnCompleteCount
    rw [htrace, htasks]
    have h1 : (([PEvent.onStart, PEvent.onSentence r, PEvent.yieldUnit r] :
        List PEvent).filter (fun e => e = PEvent.onComplete)).length = 0 := by simp
    rw [h1]
    show 0 + ((workerRun oracle 0 [(pstrip r, true)]).filter
      (fun e => match e with | TtsEvent.cbFire _ => true | _ => false)).length = 1
    have h2 : workerRun oracle 0 [(pstrip r, true)] =
        speakEvents 0 (pstrip (pstrip r)) true (oracle 0) := by
      unfold workerRun
      rw [if_neg (by rw [pstrip_idem]; exact hr)]
      simp [workerRun]
    rw [h2, pstrip_idem]
    rw [speakEvents_cbShape_count 0 (pstrip r) (oracle 0)]
  case nogen =>
    intro e he
    rw [htrace] at he
    simp at he
    rcases he with h | h | h <;> rw [h] <;> simp

/-- C7 witness: the spec's cache-hit scenario. -/
theorem C7_cache_hit_short_circuits_witness :
    (processQueryRun (PipeIn.mk
        (ResponseCache.mk 5
          [(hashQuery ("What is your name?".toList) (some (fingerprint 75 90)),
            "I am TARS.".toList)] true)
        75 90 ("What is your name?".toList) [] false true true true)).yields =
      ["I am TARS.".toList] ∧
    systemOnCompleteCount (PipeIn.mk
        (ResponseCache.mk 5
          [(hashQuery ("What is your name?".toList) (some (fingerprint 75 90)),
            "I am TARS.".toList)] true)
        75 90 ("What is your name?".toList) [] false true true true)
      (fun _ => SynthOutcome.ok) = 1 ∧
    (∀ e ∈ (processQueryRun (PipeIn.mk
        (ResponseCache.mk 5
          [(hashQuery ("What is your name?".toList) (some (fingerprint 75 90)),
            "I am TARS.".toList)] true)
        75 90 ("What is your name?".toList) [] false true true true)).trace,
      e ≠ PEvent.genCall) := by
  have h := C7_cache_hit_short_circuits (PipeIn.mk
      (ResponseCache.mk 5
        [(hashQuery ("What is your name?".toList) (some (fingerprint 75 90)),
          "I am TARS.".toList)] true)
      75 90 ("What is your name?".toList) [] false true true true)
    ("I am TARS.".toList) (by decide) (by decide) rfl rfl rfl
    (fun _ => SynthOutcome.ok)
  exact ⟨h.1, h.2.2.2.1, h.2.2.2.2.1⟩

/-! ### Scan decomposition lemmas for chunking invariance -/

theorem isTerm_not_space {c : Char} (h : isTerm c = true) : pySpace c = false := by
  simp only [isTerm, Bool.or_eq_true, decide_eq_true_eq] at h
  rcases h with (h | h) | h <;> subst h <;> rfl

theorem space_not_isTerm {c : Char} (h : pySpace c = true) : isTerm c = false := by
  cases hi : isTerm c
  · rfl
  · rw [isTerm_not_space hi] at h
    exact absurd h (by simp)

theorem nextMode_ws_plain {c : Char} (h : pySpace c = true) :
    nextMode SegMode.plain c = SegMode.plain := by
  simp [nextMode, h]

theorem nextMode_ws_afterTerm {c : Char} (h : pySpace c = true) :
    nextMode SegMode.afterTerm c = SegMode.inRun := by
  simp [nextMode, h]

theorem nextMode_ws_inRun {c : Char} (h : pySpace c = true) :
    nextMode SegMode.inRun c = SegMode.inRun := by
  simp [nextMode, h]

theorem nextMode_nonws {c : Char} (h : pySpace c = false) (m m' : SegMode) :
    nextMode m c = nextMode m' c := by
  simp [nextMode, h]

theorem nextMode_eq_afterTerm_iff (m : SegMode) (c : Char) :
    nextMode m c = SegMode.afterTerm ↔ isTerm c = true := by
  unfold nextMode
  cases hws : pySpace c
  · rw [if_neg (by simp)]
    cases ht : isTerm c
    · rw [if_neg (by simp)]
      simp
    · rw [if_pos rfl]
      simp
  · rw [if_pos rfl]
    constructor
    · intro h
      cases m <;> simp at h
    · intro h
      rw [space_not_isTerm hws] at h
      exact absurd h (by simp)

theorem stepRun_nil (m : SegMode) (cur : List Char) :
    stepRun m cur [] = ([], m, cur) := by
  cases m <;> rfl

theorem stepRun_cons_plain (cur : List Char) (c : Char) (rest : List Char) :
    stepRun SegMode.plain cur (c :: rest) =
      stepRun (nextMode SegMode.plain c) (cur ++ [c]) rest := rfl

theorem stepRun_cons_afterTerm (cur : List Char) (c : Char) (rest : List Char) :
    stepRun SegMode.afterTerm cur (c :: rest) =
      stepRun (nextMode SegMode.afterTerm c) (cur ++ [c]) rest := rfl

theorem stepRun_cons_inRun_ws {c : Char} (h : pySpace c = true) (cur rest : List Char) :
    stepRun SegMode.inRun cur (c :: rest) =
      stepRun SegMode.inRun (cur ++ [c]) rest := by
  simp [stepRun, h]

theorem stepRun_cons_inRun_nonws {c : Char} (h : pySpace c = false)
    (cur rest : List Char) :
    stepRun SegMode.inRun cur (c :: rest) =
      (cur :: (stepRun (nextMode SegMode.inRun c) [c] rest).1,
        (stepRun (nextMode SegMode.inRun c) [c] rest).2) := by
  simp [stepRun, h]

/-- A scan step never emits in modes `plain`/`afterTerm`; uniform cons
equation for those modes. -/
theorem stepRun_cons_noemit {m : SegMode} (hm : m ≠ SegMode.inRun)
    (cur : List Char) (c : Char) (rest : List Char) :
    stepRun m cur (c :: rest) = stepRun (nextMode m c) (cur ++ [c]) rest := by
  cases m with
  | plain => exact stepRun_cons_plain cur c rest
  | afterTerm => exact stepRun_cons_afterTerm cur c rest
  | inRun => exact absurd rfl hm

theorem stepRun_append : ∀ (xs ys : List Char) (m : SegMode) (cur : List Char),
    stepRun m cur (xs ++ ys) =
      ((stepRun m cur xs).1 ++
          (stepRun (stepRun m cur xs).2.1 (stepRun m cur xs).2.2 ys).1,
        (stepRun (stepRun m cur xs).2.1 (stepRun m cur xs).2.2 ys).2) := by
  intro xs
  induction xs with
  | nil =>
    intro ys m cur
    rw [stepRun_nil]
    simp
  | cons c rest ih =>
    intro ys m cur
    by_cases hm : m = SegMode.inRun
    · subst hm
      cases hws : pySpace c
      · rw [List.cons_append, stepRun_cons_inRun_nonws hws,
          stepRun_cons_inRun_nonws hws]
        rw [ih]
        simp
      · rw [List.cons_append, stepRun_cons_inRun_ws hws, stepRun_cons_inRun_ws hws]
        exact ih ys SegMode.inRun (cur ++ [c])
    · rw [List.cons_append, stepRun_cons_noemit hm, stepRun_cons_noemit hm]
      exact ih ys (nextMode m c) (cur ++ [c])

theorem stepRun_prefix : ∀ (xs : List Char) (m : SegMode) (cur a : List Char),
    stepRun m (a ++ cur) xs = prefixFirst a (stepRun m cur xs) := by
  intro xs
  induction xs with
  | nil =>
    intro m cur a
    rw [stepRun_nil, stepRun_nil]
    rfl
  | cons c rest ih =>
    intro m cur a
    by_cases hm : m = SegMode.inRun
    · subst hm
      cases hws : pySpace c
      · rw [stepRun_cons_inRun_nonws hws, stepRun_cons_inRun_nonws hws]
        rfl
      · rw [stepRun_cons_inRun_ws hws, stepRun_cons_inRun_ws hws,
          List.append_assoc]
        exact ih SegMode.inRun (cur ++ [c]) a
    · rw [stepRun_cons_noemit hm, stepRun_cons_noemit hm, List.append_assoc]
      exact ih (nextMode m c) (cur ++ [c]) a

theorem stepRun_mode : ∀ (xs : List Char) (m : SegMode) (cur : List Char),
    (stepRun m cur xs).2.1 = xs.foldl nextMode m := by
  intro xs
  induction xs with
  | nil =>
    intro m cur
    rw [stepRun_nil]
    rfl
  | cons c rest ih =>
    intro m cur
    by_cases hm : m = SegMode.inRun
    · subst hm
      cases hws : pySpace c
      · rw [stepRun_cons_inRun_nonws hws]
        show (stepRun (nextMode SegMode.inRun c) [c] rest).2.1 = _
        rw [ih]
        rfl
      · rw [stepRun_cons_inRun_ws hws]
        rw [ih]
        simp [List.foldl_cons, nextMode_ws_inRun hws]
    · rw [stepRun_cons_noemit hm]
      rw [ih]
      rfl

theorem foldl_nextMode_afterTerm : ∀ (xs : List Char) (m : SegMode),
    xs.foldl nextMode m = SegMode.afterTerm →
      (xs = [] ∧ m = SegMode.afterTerm) ∨
        (∃ t, xs.getLast? = some t ∧ isTerm t = true) := by
  intro xs
  induction xs using List.reverseRecOn with
  | nil =>
    intro m h
    exact Or.inl ⟨rfl, h⟩
  | append_singleton ys c ih =>
    intro m h
    rw [List.foldl_append] at h
    simp only [List.foldl_cons, List.foldl_nil] at h
    right
    refine ⟨c, ?_, (nextMode_eq_afterTerm_iff _ c).mp h⟩
    simp

theorem stepRun_allws : ∀ (xs : List Char) (m : SegMode) (cur : List Char),
    (∀ c ∈ xs, pySpace c = true) →
    stepRun m cur xs = ([], xs.foldl nextMode m, cur ++ xs) := by
  intro xs
  induction xs with
  | nil =>
    intro m cur _
    rw [stepRun_nil]
    simp
  | cons c rest ih =>
    intro m cur hws
    have hc : pySpace c = true := hws c (List.mem_cons_self c rest)
    have hrest : ∀ d ∈ rest, pySpace d = true :=
      fun d hd => hws d (List.mem_cons_of_mem c hd)
    by_cases hm : m = SegMode.inRun
    · subst hm
      rw [stepRun_cons_inRun_ws hc, ih SegMode.inRun (cur ++ [c]) hrest]
      simp [List.foldl_cons, nextMode_ws_inRun hc]
    · rw [stepRun_cons_noemit hm, ih (nextMode m c) (cur ++ [c]) hrest]
      simp

theorem foldl_nextMode_allws_plain : ∀ (xs : List Char),
    (∀ c ∈ xs, pySpace c = true) → xs.foldl nextMode SegMode.plain = SegMode.plain := by
  intro xs
  induction xs with
  | nil => intro _; rfl
  | cons c rest ih =>
    intro hws
    have hc := hws c (List.mem_cons_self c rest)
    simp only [List.foldl_cons, nextMode_ws_plain hc]
    exact ih fun d hd => hws d (List.mem_cons_of_mem c hd)

theorem foldl_nextMode_allws_inRun : ∀ (xs : List Char),
    (∀ c ∈ xs, pySpace c = true) → xs.foldl nextMode SegMode.inRun = SegMode.inRun := by
  intro xs
  induction xs with
  | nil => intro _; rfl
  | cons c rest ih =>
    intro hws
    have hc := hws c (List.mem_cons_self c rest)
    simp only [List.foldl_cons, nextMode_ws_inRun hc]
    exact ih fun d hd => hws d (List.mem_cons_of_mem c hd)

/-- Scanning a buffer that ended a scan in state `(m0, cur0)` again from a
fresh `plain` start reproduces the same state and emits nothing: the leftover
of a feed re-enters the next feed without changing the boundary structure. -/
theorem stepRun_rescan : ∀ (x : List Char) (m0 : SegMode) (cur0 : List Char),
    stepRun SegMode.plain [] cur0 = ([], m0, cur0) →
    stepRun SegMode.plain [] (stepRun m0 cur0 x).2.2 =
      ([], (stepRun m0 cur0 x).2.1, (stepRun m0 cur0 x).2.2) := by
  intro x
  induction x with
  | nil =>
    intro m0 cur0 h
    rw [stepRun_nil]
    exact h
  | cons c rest ih =>
    intro m0 cur0 h
    by_cases hm : m0 = SegMode.inRun
    · subst hm
      cases hws : pySpace c
      · rw [stepRun_cons_inRun_nonws hws]
        show stepRun SegMode.plain []
            (stepRun (nextMode SegMode.inRun c) [c] rest).2.2 = _
        apply ih
        rw [stepRun_cons_plain, List.nil_append, nextMode_nonws hws]
        rw [stepRun_nil]
      · rw [stepRun_cons_inRun_ws hws]
        apply ih
        rw [stepRun_append, h]
        simp only
        rw [stepRun_cons_inRun_ws hws, stepRun_nil]
        simp
    · rw [stepRun_cons_noemit hm]
      apply ih
      rw [stepRun_append, h]
      simp only
      rw [stepRun_cons_noemit hm, stepRun_nil]
      simp

/-! ### Whitespace algebra for trimming and emission -/

theorem dropWhile_ws_append {w : List Char} (hw : ∀ c ∈ w, pySpace c = true)
    (x : List Char) : (w ++ x).dropWhile pySpace = x.dropWhile pySpace := by
  induction w with
  | nil => rfl
  | cons c rest ih =>
    rw [List.cons_append,
      List.dropWhile_cons_of_pos (by simpa using hw c (List.mem_cons_self c rest))]
    exact ih fun d hd => hw d (List.mem_cons_of_mem c hd)

theorem rdropWhile_append_ws {u : List Char} (hu : ∀ c ∈ u, pySpace c = true)
    (x : List Char) :
    List.rdropWhile pySpace (x ++ u) = List.rdropWhile pySpace x := by
  induction u using List.reverseRecOn with
  | nil => rw [List.append_nil]
  | append_singleton v c ih =>
    rw [← List.append_assoc,
      List.rdropWhile_concat_pos _ _ c
        (by simpa using hu c (by simp))]
    exact ih fun d hd => hu d (by simp [hd])

theorem dropWhile_append_nonnil : ∀ {x : List Char}, x.dropWhile pySpace ≠ [] →
    ∀ u : List Char, (x ++ u).dropWhile pySpace = x.dropWhile pySpace ++ u := by
  intro x
  induction x with
  | nil =>
    intro h
    exact absurd rfl h
  | cons c rest ih =>
    intro h u
    cases hws : pySpace c
    · rw [List.cons_append, List.dropWhile_cons_of_neg (by simp [hws]),
        List.dropWhile_cons_of_neg (by simp [hws])]
      rfl
    · rw [List.dropWhile_cons_of_pos (by simp [hws])] at h ⊢
      rw [List.cons_append, List.dropWhile_cons_of_pos (by simp [hws])]
      exact ih h u

theorem pstrip_ws_left {w : List Char} (hw : ∀ c ∈ w, pySpace c = true)
    (x : List Char) : pstrip (w ++ x) = pstrip x := by
  rw [pstrip_eq_rdropWhile, pstrip_eq_rdropWhile, dropWhile_ws_append hw]

theorem pstrip_nil_of_allws {b : List Char} (hb : ∀ c ∈ b, pySpace c = true) :
    pstrip b = [] := by
  have h := pstrip_ws_left hb ([] : List Char)
  rw [List.append_nil] at h
  rw [h]
  rfl

theorem pstrip_ws_right {u : List Char} (hu : ∀ c ∈ u, pySpace c = true)
    (x : List Char) : pstrip (x ++ u) = pstrip x := by
  rw [pstrip_eq_rdropWhile, pstrip_eq_rdropWhile]
  by_cases hx : x.dropWhile pySpace = []
  · have hxu : (x ++ u).dropWhile pySpace = [] := by
      have hxw : ∀ c ∈ x, pySpace c = true := by
        simpa using List.dropWhile_eq_nil_iff.mp hx
      rw [dropWhile_ws_append hxw]
      exact List.dropWhile_eq_nil_iff.mpr (by simpa using hu)
    rw [hx, hxu]
  · rw [dropWhile_append_nonnil hx, rdropWhile_append_ws hu]

theorem flushUnits_ws_left {w : List Char} (hw : ∀ c ∈ w, pySpace c = true)
    (x : List Char) : flushUnits (w ++ x) = flushUnits x := by
  unfold flushUnits
  rw [pstrip_ws_left hw]

theorem flushUnits_ws_right {u : List Char} (hu : ∀ c ∈ u, pySpace c = true)
    (x : List Char) : flushUnits (x ++ u) = flushUnits x := by
  unfold flushUnits
  rw [pstrip_ws_right hu]

theorem flushUnits_nil : flushUnits [] = [] := rfl

theorem flushUnits_of_allws {b : List Char} (hb : ∀ c ∈ b, pySpace c = true) :
    flushUnits b = [] := by
  unfold flushUnits
  rw [if_pos (pstrip_nil_of_allws hb)]

theorem emitted_append (a b : List (List Char)) :
    emitted (a ++ b) = emitted a ++ emitted b := by
  unfold emitted
  rw [List.map_append, List.filter_append]

theorem emitted_cons (s : List Char) (ss : List (List Char)) :
    emitted (s :: ss) = flushUnits s ++ emitted ss := by
  unfold emitted flushUnits
  rw [List.map_cons, List.filter_cons]
  by_cases hnil : pstrip s = []
  · rw [if_pos hnil]
    simp [hnil]
  · rw [if_neg hnil]
    simp [hnil]

theorem emitted_single (s : List Char) : emitted [s] = flushUnits s := by
  rw [emitted_cons]
  show flushUnits s ++ emitted [] = flushUnits s
  rw [show emitted [] = [] from rfl, List.append_nil]

theorem emitted_ws_first {w : List Char} (hw : ∀ c ∈ w, pySpace c = true)
    (s : List Char) (ss : List (List Char)) :
    emitted ((w ++ s) :: ss) = emitted (s :: ss) := by
  rw [emitted_cons, emitted_cons, flushUnits_ws_left hw]

/-! ### Feed normal form -/

theorem prefixFirst_prefixFirst (a b : List Char)
    (r : List (List Char) × SegMode × List Char) :
    prefixFirst a (prefixFirst b r) = prefixFirst (a ++ b) r := by
  rcases r with ⟨ss, m, cur⟩
  cases ss with
  | nil => simp [prefixFirst]
  | cons s ss' => simp [prefixFirst]

/-- A feed's scan of `(a ++ cur) ++ ck` (whitespace slack `a`, re-entered
leftover `cur`) is the mid-scan continuation on `ck`, with the slack attached
to the first pending slice. -/
theorem feed_scan_nf {a : List Char} (ha : ∀ c ∈ a, pySpace c = true)
    {cur : List Char} (hcur : stepRun SegMode.plain [] cur = ([], SegMode.plain, cur))
    (ck : List Char) :
    stepRun SegMode.plain [] ((a ++ cur) ++ ck) =
      prefixFirst a (stepRun SegMode.plain cur ck) := by
  rw [List.append_assoc, stepRun_append, stepRun_allws a SegMode.plain [] ha]
  simp only [List.nil_append, foldl_nextMode_allws_plain a ha]
  rw [show (a : List Char) = a ++ [] from (List.append_nil a).symm, stepRun_prefix]
  rw [List.append_nil, stepRun_append, hcur]
  simp only [List.nil_append]

/-- Output of `finalize ∘ prefixFirst a` in terms of the slack-free scan
result: trimmed units and leftover of one feed. -/
theorem feed_out_nf {a : List Char} (ha : ∀ c ∈ a, pySpace c = true)
    (X : List (List Char) × SegMode × List Char) :
    emitted (finalize (prefixFirst a X)).1 =
      emitted X.1 ++ (if X.2.1 = SegMode.plain then [] else flushUnits X.2.2) ∧
    (finalize (prefixFirst a X)).2 =
      (if X.2.1 = SegMode.plain
       then (if X.1 = [] then a else []) ++ X.2.2 else []) := by
  rcases X with ⟨ss, m, cur⟩
  cases ss with
  | nil =>
    cases m with
    | plain => simp [prefixFirst, finalize, emitted]
    | afterTerm =>
      simp only [prefixFirst, finalize]
      constructor
      · rw [List.nil_append, emitted_single, flushUnits_ws_left ha]
        simp [emitted]
      · simp
    | inRun =>
      simp only [prefixFirst, finalize]
      constructor
      · rw [List.nil_append, emitted_single, flushUnits_ws_left ha]
        simp [emitted]
      · simp
  | cons s ss' =>
    cases m with
    | plain =>
      simp only [prefixFirst, finalize]
      constructor
      · rw [emitted_ws_first ha]
        simp
      · simp
    | afterTerm =>
      simp only [prefixFirst, finalize]
      constructor
      · rw [show ((a ++ s) :: ss') ++ [cur] = (a ++ s) :: (ss' ++ [cur]) from rfl,
          emitted_ws_first ha, emitted_cons, emitted_append, emitted_single]
        rw [emitted_cons]
        simp [List.append_assoc]
      · simp
    | inRun =>
      simp only [prefixFirst, finalize]
      constructor
      · rw [show ((a ++ s) :: ss') ++ [cur] = (a ++ s) :: (ss' ++ [cur]) from rfl,
          emitted_ws_first ha, emitted_cons, emitted_append, emitted_single]
        rw [emitted_cons]
        simp [List.append_assoc]
      · simp

/-! ### Continuation lemmas -/

theorem chunkCont_nil (buf : List Char) : chunkCont buf [] = flushUnits buf := by
  unfold chunkCont runFeeds
  simp

theorem chunkCont_cons (buf ck : List Char) (cks : List (List Char)) :
    chunkCont buf (ck :: cks) =
      (feedBuf buf ck).1 ++ chunkCont (feedBuf buf ck).2 cks := by
  unfold chunkCont
  show ((feedBuf buf ck).1 ++ (runFeeds (feedBuf buf ck).2 cks).1) ++ _ = _
  rw [List.append_assoc]
  rfl

theorem wholeCont_nil (m : SegMode) (cur : List Char) :
    wholeCont m cur [] = flushUnits cur := by
  unfold wholeCont
  rw [stepRun_nil]
  cases m with
  | plain =>
    show emitted [] ++ flushUnits cur = _
    rw [show emitted [] = [] from rfl, List.nil_append]
  | afterTerm =>
    show emitted ([] ++ [cur]) ++ flushUnits [] = _
    rw [List.nil_append, emitted_single, flushUnits_nil, List.append_nil]
  | inRun =>
    show emitted ([] ++ [cur]) ++ flushUnits [] = _
    rw [List.nil_append, emitted_single, flushUnits_nil, List.append_nil]

theorem wholeCont_append (m : SegMode) (cur x y : List Char) :
    wholeCont m cur (x ++ y) =
      emitted (stepRun m cur x).1 ++
        wholeCont (stepRun m cur x).2.1 (stepRun m cur x).2.2 y := by
  unfold wholeCont
  rw [stepRun_append]
  rcases hX : stepRun m cur x with ⟨ss, m1, cur1⟩
  simp only
  rcases hY : stepRun m1 cur1 y with ⟨ss2, m2, cur2⟩
  simp only
  cases m2 with
  | plain =>
    simp only [finalize]
    rw [emitted_append, List.append_assoc]
  | afterTerm =>
    simp only [finalize]
    rw [List.append_assoc, emitted_append, List.append_assoc]
  | inRun =>
    simp only [finalize]
    rw [List.append_assoc, emitted_append, List.append_assoc]

/-- Leading whitespace in a fresh scan only pads the first pending slice. -/
theorem ws_pad_eq {a : List Char} (ha : ∀ c ∈ a, pySpace c = true) (x : List Char) :
    stepRun SegMode.plain [] (a ++ x) = prefixFirst a (stepRun SegMode.plain [] x) := by
  rw [stepRun_append, stepRun_allws a SegMode.plain [] ha]
  simp only [List.nil_append, foldl_nextMode_allws_plain a ha]
  rw [show (a : List Char) = a ++ [] from (List.append_nil a).symm, stepRun_prefix]
  rw [List.append_nil]

theorem rescan_ws_pad {a : List Char} (ha : ∀ c ∈ a, pySpace c = true)
    {cur : List Char} {m' : SegMode}
    (h : stepRun SegMode.plain [] cur = ([], m', cur)) :
    stepRun SegMode.plain [] (a ++ cur) = ([], m', a ++ cur) := by
  rw [ws_pad_eq ha, h]
  rfl

theorem rescan_of_ws_pad {w : List Char} (hw : ∀ c ∈ w, pySpace c = true)
    {cur : List Char}
    (h : stepRun SegMode.plain [] (w ++ cur) = ([], SegMode.plain, w ++ cur)) :
    stepRun SegMode.plain [] cur = ([], SegMode.plain, cur) := by
  have h2 := ws_pad_eq hw cur
  rw [h] at h2
  rcases hZ : stepRun SegMode.plain [] cur with ⟨ss, m0, cur0⟩
  rw [hZ] at h2
  cases ss with
  | nil =>
    simp only [prefixFirst] at h2
    have hm : SegMode.plain = m0 := congrArg (fun r => r.2.1) h2
    have hc : w ++ cur = w ++ cur0 := congrArg (fun r => r.2.2) h2
    have hc' : cur = cur0 := List.append_cancel_left hc
    rw [← hm, ← hc']
  | cons s ss' =>
    simp [prefixFirst] at h2

theorem goodCut_headSpace {a f : List Char} {t : Char} (hg : goodCut a f = true)
    (hlast : a.getLast? = some t) (ht : isTerm t = true) : headSpace f = true := by
  unfold goodCut at hg
  rw [hlast] at hg
  cases f with
  | nil => rfl
  | cons c g =>
    simp only [List.head?] at hg
    unfold headSpace
    rw [ht] at hg
    simpa using hg

theorem scan_plain_afterTerm_last {ck : List Char} {cur0 : List Char}
    (h : (stepRun SegMode.plain cur0 ck).2.1 = SegMode.afterTerm) :
    ∃ t, ck.getLast? = some t ∧ isTerm t = true := by
  rw [stepRun_mode] at h
  rcases foldl_nextMode_afterTerm ck SegMode.plain h with ⟨-, hm⟩ | h2
  · exact absurd hm (by intro hx; cases hx)
  · exact h2

/-! ### Mid-sentence state versus fresh scan -/

theorem foldl_nextMode_B_ws {u : List Char} (hu : ∀ c ∈ u, pySpace c = true)
    (hne : u ≠ []) {m : SegMode}
    (hm : m = SegMode.afterTerm ∨ m = SegMode.inRun) :
    u.foldl nextMode m = SegMode.inRun := by
  cases u with
  | nil => exact absurd rfl hne
  | cons c rest =>
    have hc := hu c (List.mem_cons_self c rest)
    have hrest : ∀ d ∈ rest, pySpace d = true :=
      fun d hd => hu d (List.mem_cons_of_mem c hd)
    have hstep : nextMode m c = SegMode.inRun := by
      rcases hm with hm | hm <;> subst hm
      · exact nextMode_ws_afterTerm hc
      · exact nextMode_ws_inRun hc
    simp only [List.foldl_cons, hstep]
    exact foldl_nextMode_allws_inRun rest hrest

/-- Scanning an all-whitespace chunk from a pending-boundary state just
extends the run. -/
theorem stepRun_B_allws {ck : List Char} (hck : ∀ c ∈ ck, pySpace c = true)
    (m : SegMode) (s : List Char)
    (hm : m = SegMode.afterTerm ∨ m = SegMode.inRun) :
    stepRun m s ck = ([], (if ck = [] then m else SegMode.inRun), s ++ ck) := by
  rw [stepRun_allws ck m s hck]
  cases hc : ck with
  | nil =>
    rw [if_pos rfl]
    rfl
  | cons c rest =>
    rw [if_neg (by simp)]
    rw [← hc, foldl_nextMode_B_ws hck (by rw [hc]; simp) hm]

/-- Scanning from a pending-boundary state up to the first non-whitespace
character emits the pending sentence (with the whitespace run attached) and
restarts exactly like a fresh scan at that character. -/
theorem stepRun_B_emit {u : List Char} (hu : ∀ c ∈ u, pySpace c = true)
    {c : Char} (hc : pySpace c = false) (rest' s : List Char) {m : SegMode}
    (hm : m = SegMode.afterTerm ∨ m = SegMode.inRun)
    (hne : m = SegMode.afterTerm → u ≠ []) :
    stepRun m s (u ++ c :: rest') =
      ((s ++ u) :: (stepRun (nextMode SegMode.plain c) [c] rest').1,
        (stepRun (nextMode SegMode.plain c) [c] rest').2) := by
  rw [stepRun_append, stepRun_allws u m s hu]
  simp only
  have hmode : u.foldl nextMode m = SegMode.inRun := by
    by_cases hunil : u = []
    · subst hunil
      rcases hm with hm | hm
      · exact absurd hm (by intro hx; exact (hne hx) rfl)
      · exact hm
    · exact foldl_nextMode_B_ws hu hunil hm
  rw [hmode, stepRun_cons_inRun_nonws hc, nextMode_nonws hc SegMode.inRun SegMode.plain]
  simp

/-- A fresh scan of whitespace followed by a non-whitespace character is the
fresh scan from that character with the whitespace attached to its first
pending slice. -/
theorem stepRun_plain_emitsplit {u : List Char} (hu : ∀ c ∈ u, pySpace c = true)
    (c : Char) (rest' : List Char) :
    stepRun SegMode.plain [] (u ++ c :: rest') =
      prefixFirst u (stepRun (nextMode SegMode.plain c) [c] rest') := by
  rw [ws_pad_eq hu, stepRun_cons_plain, List.nil_append]

theorem stepRun_start_single (c : Char) (rest : List Char) :
    stepRun SegMode.plain [] (c :: rest) =
      stepRun (nextMode SegMode.plain c) [c] rest := by
  rw [stepRun_cons_plain, List.nil_append]

theorem dropWhile_head_false {p : Char → Bool} :
    ∀ {l : List Char} {c : Char} {t : List Char}, l.dropWhile p = c :: t →
      p c = false := by
  intro l
  induction l with
  | nil =>
    intro c t h
    simp at h
  | cons d rest ih =>
    intro c t h
    cases hd : p d
    · rw [List.dropWhile_cons_of_neg (by simp [hd])] at h
      injection h with h1 _
      rw [← h1]
      exact hd
    · rw [List.dropWhile_cons_of_pos (by simp [hd])] at h
      exact ih h

/-- One feed step, relative to the slack-free mid-scan result `X` of the
whole-text scan across the same text: the feed's output followed by the rest
of the chunked run equals the whole scan's continuation, assuming the claim
for the remaining chunks. -/
theorem cont_step (rest : List (List Char)) {a : List Char}
    (ha : ∀ c ∈ a, pySpace c = true) (X : List (List Char) × SegMode × List Char)
    (hresc : stepRun SegMode.plain [] X.2.2 = ([], X.2.1, X.2.2))
    (hhead : X.2.1 = SegMode.afterTerm → headSpace rest.flatten = true)
    (ihA : ∀ cur w, (∀ c ∈ w, pySpace c = true) →
      stepRun SegMode.plain [] (w ++ cur) = ([], SegMode.plain, w ++ cur) →
      chunkCont (w ++ cur) rest = wholeCont SegMode.plain cur rest.flatten)
    (ihB : ∀ s b m, (∀ c ∈ b, pySpace c = true) →
      (m = SegMode.afterTerm ∨ m = SegMode.inRun) →
      (m = SegMode.afterTerm → headSpace rest.flatten = true) →
      flushUnits s ++ chunkCont b rest = wholeCont m s rest.flatten) :
    emitted (finalize (prefixFirst a X)).1 ++
      chunkCont (finalize (prefixFirst a X)).2 rest =
    emitted X.1 ++ wholeCont X.2.1 X.2.2 rest.flatten := by
  obtain ⟨h1, h2⟩ := feed_out_nf ha X
  rw [h1, h2]
  by_cases hm : X.2.1 = SegMode.plain
  · rw [if_pos hm, if_pos hm, List.append_nil, hm]
    congr 1
    by_cases hX1 : X.1 = []
    · rw [if_pos hX1]
      refine ihA X.2.2 a ha (rescan_ws_pad ha ?h)
      rw [hresc, hm]
    · rw [if_neg hX1]
      have hresc' : stepRun SegMode.plain [] ([] ++ X.2.2) =
          ([], SegMode.plain, [] ++ X.2.2) := by
        rw [List.nil_append, hresc, hm]
      exact ihA X.2.2 [] (by intro c hc; cases hc) hresc'
  · rw [if_neg hm, if_neg hm, List.append_assoc]
    congr 1
    have hm' : X.2.1 = SegMode.afterTerm ∨ X.2.1 = SegMode.inRun := by
      cases hx : X.2.1 with
      | plain => exact absurd hx hm
      | afterTerm => exact Or.inl rfl
      | inRun => exact Or.inr rfl
    exact ihB X.2.2 [] X.2.1 (by intro c hc; cases hc) hm' hhead

/-- Main simulation: under good cuts, the chunked run from a state related to
the whole-text scan state produces the whole-text scan's remaining units.
Case A: the scan is mid-sentence (mode `plain`) and the chunked buffer is the
pending slice up to leading whitespace slack.  Case B: the scan is inside a
pending boundary (`afterTerm`/`inRun`); the chunked side has already emitted
the pending sentence and holds only whitespace. -/
theorem sim_main : ∀ cks : List (List Char), goodSplit cks = true →
    ((∀ cur w, (∀ c ∈ w, pySpace c = true) →
        stepRun SegMode.plain [] (w ++ cur) = ([], SegMode.plain, w ++ cur) →
        chunkCont (w ++ cur) cks = wholeCont SegMode.plain cur cks.flatten) ∧
     (∀ s b m, (∀ c ∈ b, pySpace c = true) →
        (m = SegMode.afterTerm ∨ m = SegMode.inRun) →
        (m = SegMode.afterTerm → headSpace cks.flatten = true) →
        flushUnits s ++ chunkCont b cks = wholeCont m s cks.flatten)) := by
  intro cks
  induction cks with
  | nil =>
    intro _
    constructor
    · intro cur w hw _
      rw [List.flatten_nil, chunkCont_nil, wholeCont_nil, flushUnits_ws_left hw]
    · intro s b m hb _ _
      rw [List.flatten_nil, chunkCont_nil, wholeCont_nil, flushUnits_of_allws hb,
        List.append_nil]
  | cons ck rest ih =>
    intro hgood
    simp only [goodSplit, Bool.and_eq_true] at hgood
    obtain ⟨hgc, hgr⟩ := hgood
    obtain ⟨ihA, ihB⟩ := ih hgr
    constructor
    · -- case A: buffer = whitespace slack ++ pending slice
      intro cur w hw hscan
      have hcur : stepRun SegMode.plain [] cur = ([], SegMode.plain, cur) :=
        rescan_of_ws_pad hw hscan
      have hsegs : segs ((w ++ cur) ++ ck) =
          finalize (prefixFirst w (stepRun SegMode.plain cur ck)) := by
        unfold segs
        rw [feed_scan_nf hw hcur]
      rw [chunkCont_cons]
      have hfeed1 : (feedBuf (w ++ cur) ck).1 =
          emitted (finalize (prefixFirst w (stepRun SegMode.plain cur ck))).1 := by
        unfold feedBuf
        rw [hsegs]
      have hfeed2 : (feedBuf (w ++ cur) ck).2 =
          (finalize (prefixFirst w (stepRun SegMode.plain cur ck))).2 := by
        unfold feedBuf
        rw [hsegs]
      rw [hfeed1, hfeed2,
        show (ck :: rest).flatten = ck ++ rest.flatten from rfl, wholeCont_append]
      refine cont_step rest hw (stepRun SegMode.plain cur ck)
        (stepRun_rescan ck SegMode.plain cur hcur) ?hd ihA ihB
      intro hat
      obtain ⟨t, hlast, ht⟩ := scan_plain_afterTerm_last hat
      exact goodCut_headSpace hgc hlast ht
    · -- case B: boundary pending, chunked buffer all whitespace
      intro s b m hb hm hhead
      have hud : ck.takeWhile pySpace ++ ck.dropWhile pySpace = ck :=
        List.takeWhile_append_dropWhile pySpace ck
      have hu : ∀ c ∈ ck.takeWhile pySpace, pySpace c = true :=
        fun c hc => List.mem_takeWhile_imp hc
      cases hv : ck.dropWhile pySpace with
      | nil =>
        have hckws : ∀ cc ∈ ck, pySpace cc = true := by
          rw [← hud, hv, List.append_nil]
          exact hu
        have hbc : ∀ cc ∈ b ++ ck, pySpace cc = true := by
          intro cc hcc
          rcases List.mem_append.mp hcc with hcc | hcc
          · exact hb cc hcc
          · exact hckws cc hcc
        rw [show (ck :: rest).flatten = ck ++ rest.flatten from rfl, wholeCont_append,
          stepRun_B_allws hckws m s hm]
        simp only
        rw [chunkCont_cons]
        have hfeed : feedBuf b ck = ([], b ++ ck) := by
          unfold feedBuf segs
          rw [stepRun_allws (b ++ ck) SegMode.plain [] hbc,
            foldl_nextMode_allws_plain (b ++ ck) hbc]
          rfl
        rw [hfeed]
        simp only [List.nil_append]
        rw [show emitted [] = [] from rfl, List.nil_append]
        have hm' : (if ck = [] then m else SegMode.inRun) = SegMode.afterTerm ∨
            (if ck = [] then m else SegMode.inRun) = SegMode.inRun := by
          by_cases hcknil : ck = []
          · rw [if_pos hcknil]
            exact hm
          · rw [if_neg hcknil]
            exact Or.inr rfl
        have hhead' : (if ck = [] then m else SegMode.inRun) = SegMode.afterTerm →
            headSpace rest.flatten = true := by
          intro hat
          by_cases hcknil : ck = []
          · rw [if_pos hcknil] at hat
            have := hhead hat
            rw [show (ck :: rest).flatten = ck ++ rest.flatten from rfl, hcknil,
              List.nil_append] at this
            exact this
          · rw [if_neg hcknil] at hat
            cases hat
        have hB := ihB (s ++ ck) (b ++ ck) (if ck = [] then m else SegMode.inRun)
          hbc hm' hhead'
        rw [flushUnits_ws_right hckws] at hB
        exact hB
      | cons c rest' =>
        have hck' : ck = ck.takeWhile pySpace ++ c :: rest' := by
          conv_lhs => rw [← hud, hv]
        have hcns : pySpace c = false := dropWhile_head_false hv
        have hune : m = SegMode.afterTerm → ck.takeWhile pySpace ≠ [] := by
          intro hat hunil
          have hh := hhead hat
          rw [show (ck :: rest).flatten = ck ++ rest.flatten from rfl, hck', hunil,
            List.nil_append] at hh
          unfold headSpace at hh
          simp only [List.cons_append] at hh
          rw [hcns] at hh
          exact absurd hh (by simp)
        have hbu : ∀ cc ∈ b ++ ck.takeWhile pySpace, pySpace cc = true := by
          intro cc hcc
          rcases List.mem_append.mp hcc with hcc | hcc
          · exact hb cc hcc
          · exact hu cc hcc
        rw [show (ck :: rest).flatten = ck ++ rest.flatten from rfl, wholeCont_append]
        have hsck : stepRun m s ck =
            ((s ++ ck.takeWhile pySpace) ::
                (stepRun (nextMode SegMode.plain c) [c] rest').1,
              (stepRun (nextMode SegMode.plain c) [c] rest').2) := by
          conv_lhs => rw [hck']
          exact stepRun_B_emit hu hcns rest' s hm hune
        rw [hsck]
        simp only
        rw [emitted_cons, flushUnits_ws_right hu]
        rw [chunkCont_cons]
        have hsegs : segs (b ++ ck) =
            finalize (prefixFirst (b ++ ck.takeWhile pySpace)
              (stepRun (nextMode SegMode.plain c) [c] rest')) := by
          unfold segs
          conv_lhs => rw [hck']
          rw [ws_pad_eq hb, stepRun_plain_emitsplit hu, prefixFirst_prefixFirst]
        have hfeed1 : (feedBuf b ck).1 =
            emitted (finalize (prefixFirst (b ++ ck.takeWhile pySpace)
              (stepRun (nextMode SegMode.plain c) [c] rest'))).1 := by
          unfold feedBuf
          rw [hsegs]
        have hfeed2 : (feedBuf b ck).2 =
            (finalize (prefixFirst (b ++ ck.takeWhile pySpace)
              (stepRun (nextMode SegMode.plain c) [c] rest'))).2 := by
          unfold feedBuf
          rw [hsegs]
        rw [hfeed1, hfeed2]
        have hrescK : stepRun SegMode.plain []
            (stepRun (nextMode SegMode.plain c) [c] rest').2.2 =
            ([], (stepRun (nextMode SegMode.plain c) [c] rest').2.1,
              (stepRun (nextMode SegMode.plain c) [c] rest').2.2) := by
          refine stepRun_rescan rest' (nextMode SegMode.plain c) [c] ?hbase
          rw [stepRun_start_single, stepRun_nil]
        have hheadK : (stepRun (nextMode SegMode.plain c) [c] rest').2.1 =
            SegMode.afterTerm → headSpace rest.flatten = true := by
          intro hat
          have hat' : (stepRun SegMode.plain [] (c :: rest')).2.1 =
              SegMode.afterTerm := by
            rw [stepRun_start_single]
            exact hat
          obtain ⟨t, hlast, ht⟩ := scan_plain_afterTerm_last hat'
          have hlast' : ck.getLast? = some t := by
            rw [hck', List.getLast?_append_cons]
            exact hlast
          exact goodCut_headSpace hgc hlast' ht
        have hstep := cont_step rest hbu
          (stepRun (nextMode SegMode.plain c) [c] rest') hrescK hheadK ihA ihB
        rw [List.append_assoc, hstep, ← List.append_assoc]

/-- C10: calling `process_query` only allocates a suspended generator — the
pipeline object state (cache contents and `is_processing`) is untouched and
no event occurs until the caller first advances the iterator; draining the
returned handle performs exactly the full run. -/
theorem C10_process_query_call_is_lazy (st : PipelineObj) (p : PipeIn) :
    (processQueryCall st p).1 = st ∧
    drainHandle (processQueryCall st p).2 = processQueryRun p :=
  ⟨rfl, rfl⟩

/-! ### Content preservation (sentence-unit reconstruction) -/

theorem nonWS_append (a b : List Char) : nonWS (a ++ b) = nonWS a ++ nonWS b := by
  unfold nonWS
  rw [List.filter_append]

theorem stepRun_content : ∀ (x : List Char) (m : SegMode) (cur : List Char),
    (stepRun m cur x).1.flatten ++ (stepRun m cur x).2.2 = cur ++ x := by
  intro x
  induction x with
  | nil =>
    intro m cur
    simp [stepRun]
  | cons c rest ih =>
    intro m cur
    cases m with
    | plain =>
      simp only [stepRun]
      rw [ih]
      simp
    | afterTerm =>
      simp only [stepRun]
      rw [ih]
      simp
    | inRun =>
      by_cases hws : pySpace c
      · simp only [stepRun, hws, if_true]
        rw [ih]
        simp
      · simp only [stepRun, hws, Bool.false_eq_true, if_false]
        simp only [List.flatten_cons, List.append_assoc]
        rw [ih]
        simp

theorem segs_content (b : List Char) : (segs b).1.flatten ++ (segs b).2 = b := by
  unfold segs
  have h := stepRun_content b SegMode.plain []
  rcases hs : stepRun SegMode.plain [] b with ⟨ss, m, cur⟩
  rw [hs] at h
  simp only at h
  cases m with
  | plain => simpa [finalize] using h
  | afterTerm =>
    simp only [finalize]
    simpa using h
  | inRun =>
    simp only [finalize]
    simpa using h

theorem nonWS_dropWhile (s : List Char) : nonWS (s.dropWhile pySpace) = nonWS s := by
  induction s with
  | nil => rfl
  | cons c rest ih =>
    by_cases hws : pySpace c
    · rw [List.dropWhile_cons_of_pos (by simpa using hws)]
      rw [ih]
      unfold nonWS
      rw [List.filter_cons_of_neg (by simpa using hws)]
    · rw [List.dropWhile_cons_of_neg (by simpa using hws)]

theorem nonWS_reverse (s : List Char) : nonWS s.reverse = (nonWS s).reverse := by
  unfold nonWS
  rw [List.filter_reverse]

theorem nonWS_pstrip (s : List Char) : nonWS (pstrip s) = nonWS s := by
  unfold pstrip
  rw [nonWS_reverse, nonWS_dropWhile, nonWS_reverse, List.reverse_reverse,
    nonWS_dropWhile]

theorem nonWS_nil_of_pstrip_nil {s : List Char} (h : pstrip s = []) : nonWS s = [] := by
  rw [← nonWS_pstrip, h]
  rfl

theorem nonWS_emitted (ss : List (List Char)) :
    nonWS (emitted ss).flatten = nonWS ss.flatten := by
  induction ss with
  | nil => rfl
  | cons s rest ih =>
    by_cases hnil : pstrip s = []
    · have h1 : emitted (s :: rest) = emitted rest := by
        unfold emitted
        simp [hnil]
      rw [h1, ih]
      simp only [List.flatten_cons, nonWS_append, nonWS_nil_of_pstrip_nil hnil,
        List.nil_append]
    · have h1 : emitted (s :: rest) = pstrip s :: emitted rest := by
        unfold emitted
        simp [hnil]
      rw [h1]
      simp only [List.flatten_cons, nonWS_append, nonWS_pstrip, ih]

theorem nonWS_feedBuf (buf ck : List Char) :
    nonWS ((feedBuf buf ck).1.flatten ++ (feedBuf buf ck).2) = nonWS (buf ++ ck) := by
  unfold feedBuf
  simp only
  rw [nonWS_append, nonWS_emitted, ← nonWS_append, segs_content]

theorem nonWS_runFeeds : ∀ (cks : List (List Char)) (buf : List Char),
    nonWS ((runFeeds buf cks).1.flatten ++ (runFeeds buf cks).2) =
      nonWS (buf ++ cks.flatten) := by
  intro cks
  induction cks with
  | nil =>
    intro buf
    simp [runFeeds]
  | cons ck rest ih =>
    intro buf
    show nonWS (((feedBuf buf ck).1 ++ (runFeeds (feedBuf buf ck).2 rest).1).flatten ++
      (runFeeds (feedBuf buf ck).2 rest).2) = _
    rw [List.flatten_append, List.append_assoc, nonWS_append, ih, nonWS_append,
      ← List.append_assoc, ← nonWS_append, nonWS_feedBuf]
    simp [nonWS_append, List.append_assoc]

theorem nonWS_pipeUnits (cks : List (List Char)) :
    nonWS (pipeUnits cks).flatten = nonWS cks.flatten := by
  unfold pipeUnits
  simp only
  rw [List.flatten_append, nonWS_append]
  have h := nonWS_runFeeds cks []
  rw [nonWS_append] at h
  simp only [List.nil_append] at h
  unfold flushUnits
  by_cases hnil : pstrip (runFeeds [] cks).2 = []
  · rw [if_pos hnil]
    have h0 : nonWS (runFeeds [] cks).2 = [] := nonWS_nil_of_pstrip_nil hnil
    rw [h0] at h
    simpa [nonWS] using h
  · rw [if_neg hnil]
    show nonWS (runFeeds [] cks).1.flatten ++ nonWS (pstrip (runFeeds [] cks).2 ++ []) =
      _
    rw [List.append_nil, nonWS_pstrip]
    exact h

theorem nonWS_joinSp : ∀ us : List (List Char), nonWS (joinSp us) = nonWS us.flatten := by
  intro us
  induction us with
  | nil => rfl
  | cons u rest ih =>
    cases rest with
    | nil => simp [joinSp]
    | cons v rest' =>
      show nonWS (u ++ ' ' :: joinSp (v :: rest')) = _
      rw [nonWS_append]
      have hsp : nonWS (' ' :: joinSp (v :: rest')) = nonWS (joinSp (v :: rest')) := by
        unfold nonWS
        rw [List.filter_cons_of_neg (by simp [pySpace])]
      rw [hsp, ih]
      simp [nonWS_append]

/-- C2: on a cache-miss run that completes normally, the yielded sentence
units are exactly the scan-plus-flush units of the chunk stream, and their
concatenation (trimmed units joined by single spaces) equals the full
streamed text up to whitespace normalisation: the non-whitespace character
sequences agree, so no generated non-whitespace text is lost or
duplicated. -/
theorem C2_unit_reconstruction (p : PipeIn)
    (hmiss : truthyHit
      (p.cache.get p.query (some (fingerprint p.humor p.honesty))).1 = false)
    (hok : p.genRaises = false) :
    (processQueryRun p).yields = pipeUnits p.stream ∧
    nonWS (joinSp (processQueryRun p).yields) = nonWS p.stream.flatten := by
  have hy : (processQueryRun p).yields = pipeUnits p.stream := by
    rw [processQueryRun_eq_missRun p hmiss]
    unfold missRun
    split
    · rename_i hg
      rw [hok] at hg
      exact absurd hg (by simp)
    · rfl
  refine ⟨hy, ?_⟩
  rw [hy, nonWS_joinSp, nonWS_pipeUnits]

/-- C2 witness on a concrete two-chunk stream. -/
theorem C2_unit_reconstruction_witness :
    (processQueryRun (PipeIn.mk (ResponseCache.mk 4 [] true) 75 90 ("q".toList)
        ["Hello. Wor".toList, "ld. Bye".toList] false true true true)).yields =
      pipeUnits ["Hello. Wor".toList, "ld. Bye".toList] ∧
    nonWS (joinSp (processQueryRun (PipeIn.mk (ResponseCache.mk 4 [] true) 75 90
        ("q".toList) ["Hello. Wor".toList, "ld. Bye".toList] false true true
        true)).yields) =
      nonWS (["Hello. Wor".toList, "ld. Bye".toList] : List (List Char)).flatten :=
  C2_unit_reconstruction (PipeIn.mk (ResponseCache.mk 4 [] true) 75 90 ("q".toList)
      ["Hello. Wor".toList, "ld. Bye".toList] false true true true)
    (by decide) rfl

/-- C8 witness: with every synthesis raising, the second task's callback and
synthesis still each happen exactly once. -/
theorem C8_worker_callback_exactly_once_witness :
    ((workerRun (fun _ => SynthOutcome.synthRaises) 0
        [("A.".toList, true), ("B.".toList, true)]).filter
      (fun e => e = TtsEvent.cbFire 1)).length = 1 ∧
    ((workerRun (fun _ => SynthOutcome.synthRaises) 0
        [("A.".toList, true), ("B.".toList, true)]).filter
      (fun e => e = TtsEvent.synthAttempt 1)).length = 1 := by
  have h := C8_worker_callback_exactly_once
    [("A.".toList, true), ("B.".toList, true)]
    (fun _ => SynthOutcome.synthRaises) 1 (by decide) (by decide)
  exact ⟨h.1 rfl, h.2⟩

/-- C9 witness: fingerprints `75_90` vs `20_30` on the same query. -/
theorem C9_fingerprint_partitions_cache_witness :
    (hashQuery ("What is your name?".toList) (some (fingerprint 75 90)) ≠
      hashQuery ("What is your name?".toList) (some (fingerprint 20 30))) ∧
    (((ResponseCache.mk 10 [] true).set ("What is your name?".toList)
        ("I am TARS.".toList) (some (fingerprint 75 90))).get
      ("What is your name?".toList) (some (fingerprint 20 30))).1 = none := by
  have h := C9_fingerprint_partitions_cache ("What is your name?".toList) 75 90 20 30
    (by decide)
  exact ⟨h.1, h.2 (ResponseCache.mk 10 [] true) ("I am TARS.".toList) rfl rfl⟩

/-! ### Chunking invariance of the sentence segmentation -/

/-- C1: counterexample to unconditional chunking invariance — the cut
`"3." / "14 is pi."` falls right after a terminator with non-whitespace text
following, so the provisional terminator-at-end-of-buffer rule splits the
decimal early and the chunked run yields different units than feeding the
whole text at once. -/
theorem C1_chunking_invariance_counterexample :
    pipeUnits ["3.".toList, "14 is pi.".toList] ≠
      pipeUnits [(["3.".toList, "14 is pi.".toList] : List (List Char)).flatten] := by
  decide

/-- C1 (amended): segmentation is chunking-invariant for every good split of
the text — one in which no cut falls directly after a sentence terminator
that is followed by further non-whitespace text.  For such chunkings the
chunked run and the whole-text run produce, after the final residual flush,
the same ordered sequence of trimmed sentence units. -/
theorem C1_chunking_invariance_good_splits (chunks : List (List Char))
    (hgood : goodSplit chunks = true) :
    pipeUnits chunks = pipeUnits [chunks.flatten] := by
  have h := (sim_main chunks hgood).1 [] []
    (fun c hc => absurd hc (List.not_mem_nil c)) rfl
  have h2 : pipeUnits [chunks.flatten] = wholeCont SegMode.plain [] chunks.flatten := by
    simp [pipeUnits, wholeCont, runFeeds, feedBuf, segs]
  rw [h2]
  exact h

/-- C1 witness: a concrete good split of a three-sentence text. -/
theorem C1_chunking_invariance_good_splits_witness :
    goodSplit ["Hello. Wor".toList, "ld. How are you? I am fine".toList] = true ∧
    pipeUnits ["Hello. Wor".toList, "ld. How are you? I am fine".toList] =
      pipeUnits [(["Hello. Wor".toList, "ld. How are you? I am fine".toList] :
        List (List Char)).flatten] :=
  ⟨by decide, C1_chunking_invariance_good_splits
    ["Hello. Wor".toList, "ld. How are you? I am fine".toList] (by decide)⟩

end TARS
